import Mathlib

/-!
Shallow embedding of the OMO-Switch reconciliation core
(src-tauri/src/services: config_service.rs, config_cache_service.rs,
import_export_service.rs, preset_service.rs and the command layer in
config_cache_commands.rs), together with proofs checking the
natural-language specification against it.

JSON documents (serde_json::Value) are modelled by the inductive `Json`
below.  Objects are association lists in insertion order with
replace-in-place insertion, matching a serde_json map up to the
order-insensitive equality serde uses; numbers are modelled by `Int`
(no claim depends on float semantics, only on equality).  File-system
state is modelled explicitly by the `SysState` record further down, and
every fallible service function becomes a total Lean function returning
`Except String`; error values are the i18n keys used in the source.
-/

inductive Json where
  | null : Json
  | bool : Bool → Json
  | num : Int → Json
  | str : String → Json
  | arr : List Json → Json
  | obj : List (String × Json) → Json
deriving Repr

namespace Json

mutual

/-- Structural equality on `Json`, mirroring `PartialEq` on
`serde_json::Value` with objects compared field by field. -/
def jeq : Json → Json → Bool
  | .null, .null => true
  | .bool a, .bool b => a == b
  | .num a, .num b => a == b
  | .str a, .str b => a == b
  | .arr xs, .arr ys => jeqArr xs ys
  | .obj xs, .obj ys => jeqObj xs ys
  | _, _ => false

/-- Element-wise equality of JSON arrays. -/
def jeqArr : List Json → List Json → Bool
  | [], [] => true
  | p :: ps, q :: qs => jeq p q && jeqArr ps qs
  | _, _ => false

/-- Field-wise equality of JSON objects. -/
def jeqObj : List (String × Json) → List (String × Json) → Bool
  | [], [] => true
  | (k, v) :: ps, (k2, v2) :: qs => k == k2 && jeq v v2 && jeqObj ps qs
  | _, _ => false

end

theorem beq_iff_eq_all :
    (∀ a b : Json, jeq a b = true ↔ a = b) ∧
    (∀ xs ys : List (String × Json), jeqObj xs ys = true ↔ xs = ys) ∧
    (∀ xs ys : List Json, jeqArr xs ys = true ↔ xs = ys) := by
  refine Json.jeq.mutual_induct
    (motive_1 := fun a b => (jeq a b = true ↔ a = b))
    (motive_2 := fun xs ys => (jeqObj xs ys = true ↔ xs = ys))
    (motive_3 := fun xs ys => (jeqArr xs ys = true ↔ xs = ys))
    ?_ ?_ ?_ ?_ ?_ ?_ ?_ ?_ ?_ ?_ ?_ ?_ ?_
  · simp [jeq]
  · intro a b; simp [jeq]
  · intro a b; simp [jeq]
  · intro a b; simp [jeq]
  · intro xs ys ih; simpa [jeq] using ih
  · intro xs ys ih; simpa [jeq] using ih
  · intro t x h1 h2 h3 h4 h5 h6
    constructor
    · intro hbeq
      exfalso
      cases t <;> cases x <;>
        first
          | exact h1 rfl rfl
          | exact h2 _ _ rfl rfl
          | exact h3 _ _ rfl rfl
          | exact h4 _ _ rfl rfl
          | exact h5 _ _ rfl rfl
          | exact h6 _ _ rfl rfl
          | simp [jeq] at hbeq
    · intro heq
      exfalso
      cases t <;> cases x <;> cases heq <;>
        first
          | exact h1 rfl rfl
          | exact h2 _ _ rfl rfl
          | exact h3 _ _ rfl rfl
          | exact h4 _ _ rfl rfl
          | exact h5 _ _ rfl rfl
          | exact h6 _ _ rfl rfl
  · simp [jeqArr]
  · intro x xs y ys ih1 ih2
    simp [jeqArr, ih1, ih2]
  · intro t x h1 h2
    constructor
    · intro hbeq
      exfalso
      cases t <;> cases x <;>
        first
          | exact h1 rfl rfl
          | exact h2 _ _ _ _ rfl rfl
          | simp [jeqArr] at hbeq
    · intro heq
      exfalso
      cases heq
      cases t with
      | nil => exact h1 rfl rfl
      | cons hd tl => exact h2 hd tl hd tl rfl rfl
  · simp [jeqObj]
  · intro k v xs k2 v2 ys ih1 ih2
    constructor
    · intro hbeq
      simp only [jeqObj, Bool.and_eq_true] at hbeq
      obtain ⟨⟨hk, hv⟩, hxs⟩ := hbeq
      have hk2 : k = k2 := by simpa using hk
      rw [hk2, ih1.mp hv, ih2.mp hxs]
    · intro heq
      cases heq
      simp only [jeqObj, Bool.and_eq_true]
      exact ⟨⟨by simp, ih1.mpr rfl⟩, ih2.mpr rfl⟩
  · intro t x h1 h2
    constructor
    · intro hbeq
      exfalso
      rcases t with _ | ⟨⟨k, v⟩, xs⟩ <;> rcases x with _ | ⟨⟨k2, v2⟩, ys⟩ <;>
        first
          | exact h1 rfl rfl
          | exact h2 _ _ _ _ _ _ rfl rfl
          | simp [jeqObj] at hbeq
    · intro heq
      exfalso
      cases heq
      rcases t with _ | ⟨⟨k, v⟩, xs⟩
      · exact h1 rfl rfl
      · exact h2 k v xs k v xs rfl rfl

instance : DecidableEq Json := fun a b =>
  decidable_of_iff (jeq a b = true) (beq_iff_eq_all.1 a b)

instance : BEq Json := ⟨jeq⟩

end Json

namespace Json

/-- Lookup in a JSON object (first matching key), mirroring `Map::get`. -/
def mapGet (l : List (String × Json)) (k : String) : Option Json :=
  match l with
  | [] => none
  | (k2, v) :: rest => if k2 = k then some v else mapGet rest k

/-- Insertion into a JSON object, mirroring `Map::insert`: replace the
value in place when the key is present, append otherwise. -/
def mapInsert (l : List (String × Json)) (k : String) (v : Json) : List (String × Json) :=
  match l with
  | [] => [(k, v)]
  | (k2, v2) :: rest => if k2 = k then (k, v) :: rest else (k2, v2) :: mapInsert rest k v

/-- Key set of a JSON object. -/
def keysOf (l : List (String × Json)) : List String := l.map Prod.fst

end Json

-- ============================================================================
-- config_cache_service.rs : merge_configs
-- ============================================================================

mutual

/-- `merge_configs` from config_cache_service.rs: when both values are
objects, start from a copy of the old object and fold the new object in,
recursively merging values whose key is already present and inserting the
others; in every other case the new value wins. -/
def merge_configs : Json → Json → Json
  | .obj lo, .obj ln => .obj (mergeFields lo ln)
  | _, n => n
termination_by _o n => sizeOf n
decreasing_by all_goals simp_wf

/-- The `for (key, new_val) in new_obj` loop inside `merge_configs`,
with `acc` the mutated copy `merged` of the old object. -/
def mergeFields (acc : List (String × Json)) : List (String × Json) → List (String × Json)
  | [] => acc
  | (k, v) :: rest =>
    match Json.mapGet acc k with
    | some ov => mergeFields (Json.mapInsert acc k (merge_configs ov v)) rest
    | none => mergeFields (Json.mapInsert acc k v) rest
termination_by l => sizeOf l
decreasing_by all_goals (simp_wf <;> omega)

end

-- ============================================================================
-- config_cache_service.rs : compare_configs / compare_values
-- ============================================================================

/-- `ConfigChange` from config_cache_service.rs: one structural difference
between two configurations. -/
structure ConfigChange where
  path : String
  change_type : String
  old_value : Option Json
  new_value : Option Json
deriving Repr, DecidableEq

/-- Path extension for an object key: `format!("{}.{}", path, key)` unless
the current path is empty. -/
def childPath (path key : String) : String :=
  if path = "" then key else path ++ "." ++ key

/-- Path extension for an array index: `format!("{}[{}]", path, i)`. -/
def idxPath (path : String) (i : Nat) : String :=
  path ++ "[" ++ toString i ++ "]"

/-- Key-set union used in the object branch of `compare_values`
(`HashSet` of old keys plus new keys); modelled as first-occurrence
deduplication of the concatenated key lists.  The `seen` accumulator
holds the keys already emitted. -/
def dedupKeysAux (seen : List String) : List String → List String
  | [] => []
  | k :: rest =>
    if k ∈ seen then dedupKeysAux seen rest else k :: dedupKeysAux (k :: seen) rest

/-- All keys of two JSON objects, each key once. -/
def allKeys (lo ln : List (String × Json)) : List String :=
  dedupKeysAux [] (Json.keysOf lo ++ Json.keysOf ln)

theorem mem_dedupKeysAux {a : String} :
    ∀ (l seen : List String), a ∈ dedupKeysAux seen l ↔ a ∈ l ∧ a ∉ seen := by
  intro l
  induction l with
  | nil => intro seen; simp [dedupKeysAux]
  | cons k rest ih =>
    intro seen
    rw [dedupKeysAux]
    by_cases hk : k ∈ seen
    · rw [if_pos hk, ih seen]
      constructor
      · rintro ⟨h1, h2⟩; exact ⟨List.mem_cons_of_mem _ h1, h2⟩
      · rintro ⟨h1, h2⟩
        rcases List.mem_cons.mp h1 with h | h
        · exact absurd (by rw [h]; exact hk) h2
        · exact ⟨h, h2⟩
    · rw [if_neg hk]
      constructor
      · intro h
        rcases List.mem_cons.mp h with h | h
        · rw [h]; exact ⟨List.mem_cons_self _ _, hk⟩
        · obtain ⟨h1, h2⟩ := (ih (k :: seen)).mp h
          exact ⟨List.mem_cons_of_mem _ h1, fun hc => h2 (List.mem_cons_of_mem _ hc)⟩
      · rintro ⟨h1, h2⟩
        rcases List.mem_cons.mp h1 with h | h
        · exact List.mem_cons.mpr (Or.inl h)
        · by_cases hak : a = k
          · exact List.mem_cons.mpr (Or.inl hak)
          · refine List.mem_cons.mpr (Or.inr ((ih (k :: seen)).mpr ⟨h, ?_⟩))
            intro hc
            rcases List.mem_cons.mp hc with hx | hx
            · exact hak hx
            · exact h2 hx

theorem mem_allKeys {a : String} {lo ln : List (String × Json)} :
    a ∈ allKeys lo ln ↔ a ∈ Json.keysOf lo ∨ a ∈ Json.keysOf ln := by
  rw [allKeys, mem_dedupKeysAux]
  simp

theorem Json.mapGet_sizeOf {l : List (String × Json)} {k : String} {v : Json}
    (h : Json.mapGet l k = some v) : sizeOf v < sizeOf l := by
  induction l with
  | nil => simp [Json.mapGet] at h
  | cons hd tl ih =>
    obtain ⟨k2, v2⟩ := hd
    rw [Json.mapGet] at h
    by_cases hk : k2 = k
    · rw [if_pos hk] at h
      cases h
      simp only [List.cons.sizeOf_spec, Prod.mk.sizeOf_spec]
      omega
    · rw [if_neg hk] at h
      have := ih h
      simp only [List.cons.sizeOf_spec, Prod.mk.sizeOf_spec]
      omega

theorem sizeOf_zip_le : ∀ (xs ys : List Json), sizeOf (xs.zip ys) ≤ sizeOf xs + sizeOf ys := by
  intro xs
  induction xs with
  | nil =>
    intro ys
    simp only [List.zip_nil_left, List.nil.sizeOf_spec]
    omega
  | cons x xs ih =>
    intro ys
    cases ys with
    | nil =>
      simp only [List.zip_nil_right, List.nil.sizeOf_spec, List.cons.sizeOf_spec]
      omega
    | cons y ys =>
      have := ih ys
      simp only [List.zip_cons_cons, List.cons.sizeOf_spec, Prod.mk.sizeOf_spec]
      omega

mutual

/-- `compare_values` from config_cache_service.rs: recursive diff of two
JSON values at a path, returning the list of emitted `ConfigChange`s
(the Rust version pushes them into a `&mut Vec`). -/
def compare_values (o n : Json) (path : String) : List ConfigChange :=
  if o = n then []
  else
    match o, n with
    | .obj lo, .obj ln => compareKeys lo ln (allKeys lo ln) path
    | .arr lo, .arr ln =>
      if lo.length ≠ ln.length then
        [⟨path, "modified", some (.arr lo), some (.arr ln)⟩]
      else compareIdx (lo.zip ln) path 0
    | o, n => [⟨path, "modified", some o, some n⟩]
termination_by (sizeOf o + sizeOf n, 0)
decreasing_by
  · simp_wf
    first
      | omega
      | (simp only [Prod.lex_def]; omega)
  · have := sizeOf_zip_le lo ln
    simp_wf
    first
      | omega
      | (simp only [Prod.lex_def]; omega)

/-- The `for key in all_keys` loop in the object branch of
`compare_values`. -/
def compareKeys (lo ln : List (String × Json)) (keys : List String) (path : String) :
    List ConfigChange :=
  match keys with
  | [] => []
  | k :: rest => compareKeyOne lo ln k path ++ compareKeys lo ln rest path
termination_by (sizeOf lo + sizeOf ln, keys.length + 2)
decreasing_by
  · simp_wf
    first
      | omega
      | (simp only [Prod.lex_def]; omega)
  · simp_wf
    first
      | omega
      | (simp only [Prod.lex_def]; omega)

/-- The body of the `for key in all_keys` loop in `compare_values`:
the `match (old_child, new_child)` on one key. -/
def compareKeyOne (lo ln : List (String × Json)) (k : String) (path : String) :
    List ConfigChange :=
  match hov : Json.mapGet lo k, hnv : Json.mapGet ln k with
  | some ov, some nv => compare_values ov nv (childPath path k)
  | some ov, none => [⟨childPath path k, "removed", some ov, none⟩]
  | none, some nv => [⟨childPath path k, "added", none, some nv⟩]
  | none, none => []
termination_by (sizeOf lo + sizeOf ln, 1)
decreasing_by
  · have h1 := Json.mapGet_sizeOf hov
    have h2 := Json.mapGet_sizeOf hnv
    simp_wf
    first
      | omega
      | (simp only [Prod.lex_def]; omega)

/-- The per-index loop in the equal-length array branch of
`compare_values` (`.iter().zip(..).enumerate()`). -/
def compareIdx (ps : List (Json × Json)) (path : String) (i : Nat) : List ConfigChange :=
  match ps with
  | [] => []
  | (x, y) :: rest => compare_values x y (idxPath path i) ++ compareIdx rest path (i + 1)
termination_by (sizeOf ps, 0)
decreasing_by
  all_goals
    simp_wf
    first
      | omega
      | (simp only [Prod.lex_def]; omega)

end

/-- `compare_configs` from config_cache_service.rs. -/
def compare_configs (old_config new_config : Json) : List ConfigChange :=
  compare_values old_config new_config ""

-- ============================================================================
-- Object-map lemmas
-- ============================================================================

namespace Json

/-- Whether a JSON value is an object (`Value::as_object().is_some()`). -/
def isObj : Json → Bool
  | .obj _ => true
  | _ => false

/-- Field access on a JSON value: lookup when it is an object, `none`
otherwise (`value.get(key)` through `as_object`). -/
def getField (j : Json) (k : String) : Option Json :=
  match j with
  | .obj l => mapGet l k
  | _ => none


theorem keysOf_cons (k : String) (v : Json) (rest : List (String × Json)) :
    keysOf ((k, v) :: rest) = k :: keysOf rest := rfl

theorem mapGet_mapInsert_self (l : List (String × Json)) (k : String) (v : Json) :
    mapGet (mapInsert l k v) k = some v := by
  induction l with
  | nil => simp [mapInsert, mapGet]
  | cons hd rest ih =>
    obtain ⟨k2, v2⟩ := hd
    by_cases hk : k2 = k
    · subst hk
      simp [mapInsert, mapGet]
    · simp [mapInsert, mapGet, hk, ih]

theorem mapGet_mapInsert_ne (l : List (String × Json)) {k k2 : String} (v : Json)
    (h : k ≠ k2) : mapGet (mapInsert l k v) k2 = mapGet l k2 := by
  induction l with
  | nil => simp [mapInsert, mapGet, h]
  | cons hd rest ih =>
    obtain ⟨k3, v3⟩ := hd
    by_cases hk : k3 = k
    · subst hk
      simp [mapInsert, mapGet, h, ih]
    · simp [mapInsert, mapGet, hk, ih]

theorem mapInsert_self {l : List (String × Json)} {k : String} {v : Json}
    (h : mapGet l k = some v) : mapInsert l k v = l := by
  induction l with
  | nil => simp [mapGet] at h
  | cons hd rest ih =>
    obtain ⟨k2, v2⟩ := hd
    rw [mapGet] at h
    rw [mapInsert]
    by_cases hk : k2 = k
    · rw [if_pos hk] at h ⊢
      cases h
      rw [hk]
    · rw [if_neg hk] at h ⊢
      rw [ih h]

theorem mapGet_eq_none_of_not_mem {l : List (String × Json)} {k : String}
    (h : k ∉ keysOf l) : mapGet l k = none := by
  induction l with
  | nil => rfl
  | cons hd rest ih =>
    obtain ⟨k2, v2⟩ := hd
    rw [keysOf_cons] at h
    rw [mapGet, if_neg (fun hc => h (by rw [← hc]; exact List.mem_cons_self _ _))]
    exact ih (fun hc => h (List.mem_cons_of_mem _ hc))

theorem mapGet_of_nodup_mem {l : List (String × Json)} {k : String} {v : Json}
    (hnd : (keysOf l).Nodup) (h : (k, v) ∈ l) : mapGet l k = some v := by
  induction l with
  | nil => cases h
  | cons hd rest ih =>
    obtain ⟨k2, v2⟩ := hd
    rw [keysOf_cons] at hnd
    obtain ⟨hk2, hndrest⟩ := List.nodup_cons.mp hnd
    rcases List.mem_cons.mp h with h1 | h1
    · cases h1
      rw [mapGet, if_pos rfl]
    · have hne : k2 ≠ k := by
        intro hc
        apply hk2
        rw [hc]
        exact List.mem_map.mpr ⟨(k, v), h1, rfl⟩
      rw [mapGet, if_neg hne]
      exact ih hndrest h1

theorem mapGet_mem {l : List (String × Json)} {k : String} {v : Json}
    (h : mapGet l k = some v) : (k, v) ∈ l := by
  induction l with
  | nil => simp [mapGet] at h
  | cons hd rest ih =>
    obtain ⟨k2, v2⟩ := hd
    rw [mapGet] at h
    by_cases hk : k2 = k
    · rw [if_pos hk] at h
      cases h
      rw [hk]
      exact List.mem_cons_self _ _
    · rw [if_neg hk] at h
      exact List.mem_cons_of_mem _ (ih h)

theorem keysOf_mapInsert_mem {l : List (String × Json)} {k : String} (v : Json)
    (h : k ∈ keysOf l) : keysOf (mapInsert l k v) = keysOf l := by
  induction l with
  | nil => simp [keysOf] at h
  | cons hd rest ih =>
    obtain ⟨k2, v2⟩ := hd
    rw [mapInsert]
    by_cases hk : k2 = k
    · rw [if_pos hk, keysOf_cons, keysOf_cons, hk]
    · rw [if_neg hk, keysOf_cons, keysOf_cons]
      rw [keysOf_cons] at h
      have h2 : k ∈ keysOf rest := by
        rcases List.mem_cons.mp h with h3 | h3
        · exact absurd h3.symm hk
        · exact h3
      rw [ih h2]

theorem keysOf_mapInsert_not_mem {l : List (String × Json)} {k : String} (v : Json)
    (h : k ∉ keysOf l) : keysOf (mapInsert l k v) = keysOf l ++ [k] := by
  induction l with
  | nil => simp [mapInsert, keysOf]
  | cons hd rest ih =>
    obtain ⟨k2, v2⟩ := hd
    rw [keysOf_cons] at h
    have hne : k2 ≠ k := fun hc => h (by rw [hc]; exact List.mem_cons_self _ _)
    rw [mapInsert, if_neg hne, keysOf_cons, keysOf_cons, List.cons_append]
    rw [ih (fun hc => h (List.mem_cons_of_mem _ hc))]

end Json

/-- Lookup characterization of the object branch of `merge_configs`:
assuming the new object has no duplicate keys (true of every real
serde_json map), a key of the merged object maps to the recursive merge
when present in both, to the new value when only in the new object, and
to the old value otherwise. -/
theorem mapGet_mergeFields :
    ∀ (ln acc : List (String × Json)), (Json.keysOf ln).Nodup → ∀ k,
      Json.mapGet (mergeFields acc ln) k =
        (match Json.mapGet ln k, Json.mapGet acc k with
         | some nv, some ov => some (merge_configs ov nv)
         | some nv, none => some nv
         | none, mo => mo) := by
  intro ln
  induction ln with
  | nil => intro acc _ k; rw [mergeFields, Json.mapGet]
  | cons hd rest ih =>
    obtain ⟨k2, v⟩ := hd
    intro acc hnd k
    rw [Json.keysOf_cons] at hnd
    obtain ⟨hk2, hndrest⟩ := List.nodup_cons.mp hnd
    rcases hacc : Json.mapGet acc k2 with _ | ov
    · simp only [mergeFields, hacc]
      rw [ih _ hndrest k]
      by_cases hkk : k2 = k
      · subst hkk
        rw [Json.mapGet_eq_none_of_not_mem hk2]
        simp only [Json.mapGet_mapInsert_self, Json.mapGet, if_pos rfl, hacc]
        simp
      · rw [Json.mapGet_mapInsert_ne _ _ hkk, Json.mapGet, if_neg hkk]
    · simp only [mergeFields, hacc]
      rw [ih _ hndrest k]
      by_cases hkk : k2 = k
      · subst hkk
        rw [Json.mapGet_eq_none_of_not_mem hk2]
        simp only [Json.mapGet_mapInsert_self, Json.mapGet, if_pos rfl, hacc]
        simp
      · rw [Json.mapGet_mapInsert_ne _ _ hkk, Json.mapGet, if_neg hkk]

-- ============================================================================
-- Wellformed documents (real serde_json values: no duplicate object keys)
-- ============================================================================

namespace Json

mutual

/-- A `Json` value is wellformed when no object in it has duplicate keys.
Every value built by serde_json satisfies this (its maps are real maps). -/
def wf : Json → Bool
  | .null => true
  | .bool _ => true
  | .num _ => true
  | .str _ => true
  | .arr xs => wfList xs
  | .obj l => decide ((keysOf l).Nodup) && wfFields l

/-- All members of a JSON array are wellformed. -/
def wfList : List Json → Bool
  | [] => true
  | x :: xs => wf x && wfList xs

/-- All values of a JSON object are wellformed. -/
def wfFields : List (String × Json) → Bool
  | [] => true
  | (_, v) :: rest => wf v && wfFields rest

end

theorem wf_obj_nodup {l : List (String × Json)} (h : wf (.obj l) = true) :
    (keysOf l).Nodup := by
  rw [wf, Bool.and_eq_true] at h
  exact of_decide_eq_true h.1

theorem wf_obj_fields {l : List (String × Json)} (h : wf (.obj l) = true) :
    wfFields l = true := by
  rw [wf, Bool.and_eq_true] at h
  exact h.2

theorem wfFields_mem {l : List (String × Json)} {k : String} {v : Json}
    (hw : wfFields l = true) (h : (k, v) ∈ l) : wf v = true := by
  induction l with
  | nil => cases h
  | cons hd rest ih =>
    obtain ⟨k2, v2⟩ := hd
    rw [wfFields, Bool.and_eq_true] at hw
    rcases List.mem_cons.mp h with h1 | h1
    · cases h1
      exact hw.1
    · exact ih hw.2 h1

theorem sizeOf_val_lt_of_mem {l : List (String × Json)} {k : String} {v : Json}
    (h : (k, v) ∈ l) : sizeOf v < sizeOf l := by
  have h1 := List.sizeOf_lt_of_mem h
  have h2 : sizeOf v < sizeOf (k, v) := by
    simp only [Prod.mk.sizeOf_spec]
    omega
  omega

theorem mapGet_isSome_of_mem {l : List (String × Json)} {k : String}
    (h : k ∈ keysOf l) : ∃ v, mapGet l k = some v := by
  induction l with
  | nil => simp [keysOf] at h
  | cons hd rest ih =>
    obtain ⟨k2, v2⟩ := hd
    by_cases hk : k2 = k
    · exact ⟨v2, by rw [mapGet, if_pos hk]⟩
    · rw [keysOf_cons] at h
      rcases List.mem_cons.mp h with h1 | h1
      · exact absurd h1.symm hk
      · obtain ⟨v, hv⟩ := ih h1
        exact ⟨v, by rw [mapGet, if_neg hk]; exact hv⟩

end Json

-- ============================================================================
-- Merge algebra: idempotence and absorption
-- ============================================================================

/-- If every field of `m` is already present in `acc` with an
absorbing value, folding `m` into `acc` changes nothing. -/
theorem mergeFields_fixed :
    ∀ (m acc : List (String × Json)),
      (∀ p ∈ m, ∃ w, Json.mapGet acc p.1 = some w ∧ merge_configs w p.2 = w) →
      mergeFields acc m = acc := by
  intro m
  induction m with
  | nil => intro acc _; rw [mergeFields]
  | cons hd rest ih =>
    obtain ⟨k, v⟩ := hd
    intro acc hp
    obtain ⟨w, hw, hmw⟩ := hp (k, v) (List.mem_cons_self _ _)
    simp only [mergeFields, hw]
    rw [hmw, Json.mapInsert_self hw]
    exact ih acc (fun p hmem => hp p (List.mem_cons_of_mem _ hmem))

theorem merge_configs_self_aux :
    ∀ (fuel : Nat) (x : Json), sizeOf x ≤ fuel → x.wf = true → merge_configs x x = x := by
  intro fuel
  induction fuel with
  | zero =>
    intro x hle _
    exfalso
    cases x <;> simp at hle
  | succ fuel ih =>
    intro x hle hwf
    cases x with
    | obj l =>
      rw [merge_configs]
      have hnd := Json.wf_obj_nodup hwf
      have hfl := Json.wf_obj_fields hwf
      have : mergeFields l l = l := by
        apply mergeFields_fixed
        rintro ⟨k, v⟩ hmem
        refine ⟨v, Json.mapGet_of_nodup_mem hnd hmem, ?_⟩
        apply ih v _ (Json.wfFields_mem hfl hmem)
        have h1 := Json.sizeOf_val_lt_of_mem hmem
        have h2 : sizeOf (Json.obj l) = 1 + sizeOf l := by simp
        omega
      rw [this]
    | null => rw [merge_configs] <;> simp
    | bool b => rw [merge_configs] <;> simp
    | num a => rw [merge_configs] <;> simp
    | str s => rw [merge_configs] <;> simp
    | arr xs => rw [merge_configs] <;> simp

/-- Idempotence of `merge_configs` on wellformed documents. -/
theorem merge_configs_self (x : Json) (h : x.wf = true) : merge_configs x x = x :=
  merge_configs_self_aux (sizeOf x) x (le_refl _) h

theorem merge_absorb_aux :
    ∀ (fuel : Nat) (a b : Json), sizeOf b ≤ fuel → a.wf = true → b.wf = true →
      merge_configs (merge_configs a b) b = merge_configs a b := by
  intro fuel
  induction fuel with
  | zero =>
    intro a b hle _ _
    exfalso
    cases b <;> simp at hle
  | succ fuel ih =>
    intro a b hle hwa hwb
    cases b with
    | obj ln =>
      cases a with
      | obj lo =>
        rw [merge_configs, merge_configs]
        have hnd := Json.wf_obj_nodup hwb
        have hflo := Json.wf_obj_fields hwa
        have hfln := Json.wf_obj_fields hwb
        have : mergeFields (mergeFields lo ln) ln = mergeFields lo ln := by
          apply mergeFields_fixed
          rintro ⟨k, v⟩ hmem
          have hln : Json.mapGet ln k = some v := Json.mapGet_of_nodup_mem hnd hmem
          have hchar := mapGet_mergeFields ln lo hnd k
          rw [hln] at hchar
          have hszv : sizeOf v ≤ fuel := by
            have h1 := Json.sizeOf_val_lt_of_mem hmem
            have h2 : sizeOf (Json.obj ln) = 1 + sizeOf ln := by simp
            omega
          have hwv : v.wf = true := Json.wfFields_mem hfln hmem
          rcases hlo : Json.mapGet lo k with _ | ov
          · rw [hlo] at hchar
            exact ⟨v, hchar, merge_configs_self v hwv⟩
          · rw [hlo] at hchar
            refine ⟨merge_configs ov v, hchar, ?_⟩
            exact ih ov v hszv (Json.wfFields_mem hflo (Json.mapGet_mem hlo)) hwv
        rw [this]
      | null =>
        have h1 : merge_configs Json.null (Json.obj ln) = Json.obj ln := by
          rw [merge_configs] <;> simp
        rw [h1]
        exact merge_configs_self _ hwb
      | bool x =>
        have h1 : merge_configs (Json.bool x) (Json.obj ln) = Json.obj ln := by
          rw [merge_configs] <;> simp
        rw [h1]
        exact merge_configs_self _ hwb
      | num x =>
        have h1 : merge_configs (Json.num x) (Json.obj ln) = Json.obj ln := by
          rw [merge_configs] <;> simp
        rw [h1]
        exact merge_configs_self _ hwb
      | str x =>
        have h1 : merge_configs (Json.str x) (Json.obj ln) = Json.obj ln := by
          rw [merge_configs] <;> simp
        rw [h1]
        exact merge_configs_self _ hwb
      | arr x =>
        have h1 : merge_configs (Json.arr x) (Json.obj ln) = Json.obj ln := by
          rw [merge_configs] <;> simp
        rw [h1]
        exact merge_configs_self _ hwb
    | null => cases a <;> simp [merge_configs]
    | bool x => cases a <;> simp [merge_configs]
    | num x => cases a <;> simp [merge_configs]
    | str x => cases a <;> simp [merge_configs]
    | arr x => cases a <;> simp [merge_configs]

-- ============================================================================
-- Diff symmetry machinery
-- ============================================================================

theorem mem_compareKeys {c : ConfigChange} :
    ∀ (keys : List String) (lo ln : List (String × Json)) (path : String),
      c ∈ compareKeys lo ln keys path ↔ ∃ k ∈ keys, c ∈ compareKeyOne lo ln k path := by
  intro keys
  induction keys with
  | nil => intro lo ln path; simp [compareKeys]
  | cons k rest ih =>
    intro lo ln path
    rw [compareKeys]
    rw [List.mem_append, ih]
    constructor
    · rintro (h | ⟨k2, hk2, hmem⟩)
      · exact ⟨k, List.mem_cons_self _ _, h⟩
      · exact ⟨k2, List.mem_cons_of_mem _ hk2, hmem⟩
    · rintro ⟨k2, hk2, hmem⟩
      rcases List.mem_cons.mp hk2 with h1 | h1
      · exact Or.inl (h1 ▸ hmem)
      · exact Or.inr ⟨k2, h1, hmem⟩

theorem compareIdx_swap_mem {p : String} {v : Json} :
    ∀ (ps : List (Json × Json)) (path : String) (i : Nat),
      (∀ x y, (x, y) ∈ ps → ∀ q : String,
        ((⟨p, "added", none, some v⟩ : ConfigChange) ∈ compare_values x y q ↔
         (⟨p, "removed", some v, none⟩ : ConfigChange) ∈ compare_values y x q)) →
      ((⟨p, "added", none, some v⟩ : ConfigChange) ∈ compareIdx ps path i ↔
       (⟨p, "removed", some v, none⟩ : ConfigChange) ∈ compareIdx (ps.map Prod.swap) path i) := by
  intro ps
  induction ps with
  | nil => intro path i _; simp [compareIdx]
  | cons hd rest ih =>
    obtain ⟨x, y⟩ := hd
    intro path i hswap
    rw [List.map_cons]
    rw [compareIdx, compareIdx]
    rw [List.mem_append, List.mem_append]
    constructor
    · rintro (h | h)
      · exact Or.inl ((hswap x y (List.mem_cons_self _ _) _).mp h)
      · exact Or.inr ((ih path (i + 1)
          (fun a b hab q => hswap a b (List.mem_cons_of_mem _ hab) q)).mp h)
    · rintro (h | h)
      · exact Or.inl ((hswap x y (List.mem_cons_self _ _) _).mpr h)
      · exact Or.inr ((ih path (i + 1)
          (fun a b hab q => hswap a b (List.mem_cons_of_mem _ hab) q)).mpr h)

theorem compareKeyOne_none_none {lo ln : List (String × Json)} {k path : String}
    (hov : Json.mapGet lo k = none) (hnv : Json.mapGet ln k = none) :
    compareKeyOne lo ln k path = [] := by
  rw [compareKeyOne.eq_def]
  split <;> simp_all

theorem compareKeyOne_none_some {lo ln : List (String × Json)} {k path : String} {nv : Json}
    (hov : Json.mapGet lo k = none) (hnv : Json.mapGet ln k = some nv) :
    compareKeyOne lo ln k path =
      [⟨childPath path k, "added", none, some nv⟩] := by
  rw [compareKeyOne.eq_def]
  split <;> simp_all

theorem compareKeyOne_some_none {lo ln : List (String × Json)} {k path : String} {ov : Json}
    (hov : Json.mapGet lo k = some ov) (hnv : Json.mapGet ln k = none) :
    compareKeyOne lo ln k path =
      [⟨childPath path k, "removed", some ov, none⟩] := by
  rw [compareKeyOne.eq_def]
  split <;> simp_all

theorem compareKeyOne_some_some {lo ln : List (String × Json)} {k path : String} {ov nv : Json}
    (hov : Json.mapGet lo k = some ov) (hnv : Json.mapGet ln k = some nv) :
    compareKeyOne lo ln k path = compare_values ov nv (childPath path k) := by
  rw [compareKeyOne.eq_def]
  split <;> simp_all

theorem compare_swap_aux :
    ∀ (fuel : Nat) (o n : Json), sizeOf o + sizeOf n ≤ fuel →
      ∀ (path p : String) (v : Json),
        ((⟨p, "added", none, some v⟩ : ConfigChange) ∈ compare_values o n path ↔
         (⟨p, "removed", some v, none⟩ : ConfigChange) ∈ compare_values n o path) := by
  intro fuel
  induction fuel with
  | zero =>
    intro o n hle
    exfalso
    cases o <;> simp at hle
  | succ fuel ih =>
    intro o n hle path p v
    by_cases heq : o = n
    · subst heq
      rw [compare_values.eq_def, if_pos rfl]
      simp
    · have hne2 : n ≠ o := fun hc => heq hc.symm
      cases o with
      | obj lo =>
        cases n with
        | obj ln =>
          simp only [compare_values, if_neg heq, if_neg hne2]
          rw [mem_compareKeys, mem_compareKeys]
          have hsz : sizeOf lo + sizeOf ln ≤ fuel := by
            simp only [Json.obj.sizeOf_spec] at hle
            omega
          have hkey : ∀ k : String,
              ((⟨p, "added", none, some v⟩ : ConfigChange) ∈ compareKeyOne lo ln k path ↔
               (⟨p, "removed", some v, none⟩ : ConfigChange) ∈ compareKeyOne ln lo k path) := by
            intro k
            rcases hov : Json.mapGet lo k with _ | ov <;>
              rcases hnv : Json.mapGet ln k with _ | nv
            · rw [compareKeyOne_none_none hov hnv, compareKeyOne_none_none hnv hov]
              simp
            · rw [compareKeyOne_none_some hov hnv, compareKeyOne_some_none hnv hov]
              simp
            · rw [compareKeyOne_some_none hov hnv, compareKeyOne_none_some hnv hov]
              simp
            · rw [compareKeyOne_some_some hov hnv, compareKeyOne_some_some hnv hov]
              apply ih
              have h1 := Json.mapGet_sizeOf hov
              have h2 := Json.mapGet_sizeOf hnv
              omega
          constructor
          · rintro ⟨k, hk, hmem⟩
            refine ⟨k, ?_, (hkey k).mp hmem⟩
            rw [mem_allKeys] at hk ⊢
            exact hk.symm
          · rintro ⟨k, hk, hmem⟩
            refine ⟨k, ?_, (hkey k).mpr hmem⟩
            rw [mem_allKeys] at hk ⊢
            exact hk.symm
        | null => simp [compare_values, heq, hne2]
        | bool b => simp [compare_values, heq, hne2]
        | num a => simp [compare_values, heq, hne2]
        | str s => simp [compare_values, heq, hne2]
        | arr ln => simp [compare_values, heq, hne2]
      | arr lo =>
        cases n with
        | arr ln =>
          simp only [compare_values, if_neg heq, if_neg hne2]
          by_cases hlen : lo.length = ln.length
          · rw [if_neg (by omega), if_neg (by omega)]
            have hswap : ∀ x y, (x, y) ∈ lo.zip ln → ∀ q : String,
                ((⟨p, "added", none, some v⟩ : ConfigChange) ∈ compare_values x y q ↔
                 (⟨p, "removed", some v, none⟩ : ConfigChange) ∈ compare_values y x q) := by
              intro x y hxy q
              apply ih
              obtain ⟨hx, hy⟩ := List.of_mem_zip hxy
              have h1 := List.sizeOf_lt_of_mem hx
              have h2 := List.sizeOf_lt_of_mem hy
              simp only [Json.arr.sizeOf_spec] at hle
              omega
            have := compareIdx_swap_mem (lo.zip ln) path 0 hswap
            rw [List.zip_swap] at this
            exact this
          · rw [if_pos (by omega), if_pos (by omega)]
            simp
        | null => simp [compare_values, heq, hne2]
        | bool b => simp [compare_values, heq, hne2]
        | num a => simp [compare_values, heq, hne2]
        | str s => simp [compare_values, heq, hne2]
        | obj ln => simp [compare_values, heq, hne2]
      | null => cases n <;> simp [compare_values, heq, hne2]
      | bool b => cases n <;> simp [compare_values, heq, hne2]
      | num a => cases n <;> simp [compare_values, heq, hne2]
      | str s => cases n <;> simp [compare_values, heq, hne2]

theorem compare_values_arr_ne_len {lo ln : List Json} {path : String}
    (h : lo.length ≠ ln.length) :
    compare_values (.arr lo) (.arr ln) path =
      [⟨path, "modified", some (.arr lo), some (.arr ln)⟩] := by
  have hne : Json.arr lo ≠ Json.arr ln := by
    intro hc
    cases hc
    exact h rfl
  rw [compare_values.eq_def, if_neg hne]
  simp [h]

theorem compare_values_arr_eq_len {lo ln : List Json} {path : String}
    (hlen : lo.length = ln.length) (hne : Json.arr lo ≠ Json.arr ln) :
    compare_values (.arr lo) (.arr ln) path = compareIdx (lo.zip ln) path 0 := by
  rw [compare_values.eq_def, if_neg hne]
  simp [hlen]

theorem mem_compareIdx {c : ConfigChange} :
    ∀ (ps : List (Json × Json)) (path : String) (i : Nat),
      c ∈ compareIdx ps path i →
      ∃ x y j, (x, y) ∈ ps ∧ c ∈ compare_values x y (idxPath path j) := by
  intro ps
  induction ps with
  | nil => intro path i h; simp [compareIdx] at h
  | cons hd rest ih =>
    obtain ⟨x, y⟩ := hd
    intro path i h
    rw [compareIdx, List.mem_append] at h
    rcases h with h | h
    · exact ⟨x, y, i, List.mem_cons_self _ _, h⟩
    · obtain ⟨a, b, j, hab, hmem⟩ := ih path (i + 1) h
      exact ⟨a, b, j, List.mem_cons_of_mem _ hab, hmem⟩

theorem compare_values_shape :
    ∀ (fuel : Nat) (o n : Json) (path : String), sizeOf o + sizeOf n ≤ fuel →
      ∀ c ∈ compare_values o n path,
        (c.change_type = "added" ∧ c.old_value = none ∧ ∃ w, c.new_value = some w) ∨
        (c.change_type = "removed" ∧ (∃ w, c.old_value = some w) ∧ c.new_value = none) ∨
        (c.change_type = "modified" ∧ (∃ w, c.old_value = some w) ∧
          ∃ w, c.new_value = some w) := by
  intro fuel
  induction fuel with
  | zero =>
    intro o n path hle
    exfalso
    cases o <;> simp at hle
  | succ fuel ih =>
    intro o n path hle c hc
    by_cases heq : o = n
    · subst heq
      rw [compare_values.eq_def, if_pos rfl] at hc
      cases hc
    · cases o with
      | obj lo =>
        cases n with
        | obj ln =>
          rw [compare_values.eq_def, if_neg heq] at hc
          rw [mem_compareKeys] at hc
          obtain ⟨k, _, hmem⟩ := hc
          rcases hov : Json.mapGet lo k with _ | ov <;>
            rcases hnv : Json.mapGet ln k with _ | nv
          · rw [compareKeyOne_none_none hov hnv] at hmem
            cases hmem
          · rw [compareKeyOne_none_some hov hnv, List.mem_singleton] at hmem
            rw [hmem]
            exact Or.inl (by simp)
          · rw [compareKeyOne_some_none hov hnv, List.mem_singleton] at hmem
            rw [hmem]
            exact Or.inr (Or.inl (by simp))
          · rw [compareKeyOne_some_some hov hnv] at hmem
            have h1 := Json.mapGet_sizeOf hov
            have h2 := Json.mapGet_sizeOf hnv
            refine ih ov nv (childPath path k) ?_ c hmem
            simp only [Json.obj.sizeOf_spec] at hle
            omega
        | null =>
          rw [compare_values.eq_def, if_neg heq] at hc
          simp at hc
          rw [hc]
          exact Or.inr (Or.inr (by simp))
        | bool b =>
          rw [compare_values.eq_def, if_neg heq] at hc
          simp at hc
          rw [hc]
          exact Or.inr (Or.inr (by simp))
        | num a =>
          rw [compare_values.eq_def, if_neg heq] at hc
          simp at hc
          rw [hc]
          exact Or.inr (Or.inr (by simp))
        | str s =>
          rw [compare_values.eq_def, if_neg heq] at hc
          simp at hc
          rw [hc]
          exact Or.inr (Or.inr (by simp))
        | arr ln =>
          rw [compare_values.eq_def, if_neg heq] at hc
          simp at hc
          rw [hc]
          exact Or.inr (Or.inr (by simp))
      | arr lo =>
        cases n with
        | arr ln =>
          by_cases hlen : lo.length = ln.length
          · rw [compare_values_arr_eq_len hlen heq] at hc
            obtain ⟨x, y, j, hxy, hmem⟩ := mem_compareIdx _ _ _ hc
            obtain ⟨hx, hy⟩ := List.of_mem_zip hxy
            have h1 := List.sizeOf_lt_of_mem hx
            have h2 := List.sizeOf_lt_of_mem hy
            refine ih x y (idxPath path j) ?_ c hmem
            simp only [Json.arr.sizeOf_spec] at hle
            omega
          · rw [compare_values_arr_ne_len hlen, List.mem_singleton] at hc
            rw [hc]
            exact Or.inr (Or.inr (by simp))
        | null =>
          rw [compare_values.eq_def, if_neg heq] at hc
          simp at hc
          rw [hc]
          exact Or.inr (Or.inr (by simp))
        | bool b =>
          rw [compare_values.eq_def, if_neg heq] at hc
          simp at hc
          rw [hc]
          exact Or.inr (Or.inr (by simp))
        | num a =>
          rw [compare_values.eq_def, if_neg heq] at hc
          simp at hc
          rw [hc]
          exact Or.inr (Or.inr (by simp))
        | str s =>
          rw [compare_values.eq_def, if_neg heq] at hc
          simp at hc
          rw [hc]
          exact Or.inr (Or.inr (by simp))
        | obj ln =>
          rw [compare_values.eq_def, if_neg heq] at hc
          simp at hc
          rw [hc]
          exact Or.inr (Or.inr (by simp))
      | null =>
        cases n <;>
          (rw [compare_values.eq_def, if_neg heq] at hc
           simp at hc
           rw [hc]
           exact Or.inr (Or.inr (by simp)))
      | bool b =>
        cases n <;>
          (rw [compare_values.eq_def, if_neg heq] at hc
           simp at hc
           rw [hc]
           exact Or.inr (Or.inr (by simp)))
      | num a =>
        cases n <;>
          (rw [compare_values.eq_def, if_neg heq] at hc
           simp at hc
           rw [hc]
           exact Or.inr (Or.inr (by simp)))
      | str s =>
        cases n <;>
          (rw [compare_values.eq_def, if_neg heq] at hc
           simp at hc
           rw [hc]
           exact Or.inr (Or.inr (by simp)))

-- ============================================================================
-- Claim theorems: merge and diff (C4, C6, C7, C8)
-- ============================================================================

/-- C4: the merge operation is absorptive: for all documents `a` and `b`
(JSON values whose objects have no duplicate keys, as produced by
serde_json), `merge(merge(a, b), b) = merge(a, b)`. -/
theorem claim_c4_merge_absorption (a b : Json) (ha : a.wf = true) (hb : b.wf = true) :
    merge_configs (merge_configs a b) b = merge_configs a b :=
  merge_absorb_aux (sizeOf b) a b (le_refl _) ha hb

theorem claim_c4_merge_absorption_witness :
    (Json.obj [("a", Json.num 1), ("b", Json.num 2)]).wf = true ∧
    (Json.obj [("b", Json.num 3), ("c", Json.num 4)]).wf = true ∧
    merge_configs
        (merge_configs (Json.obj [("a", Json.num 1), ("b", Json.num 2)])
          (Json.obj [("b", Json.num 3), ("c", Json.num 4)]))
        (Json.obj [("b", Json.num 3), ("c", Json.num 4)]) =
      merge_configs (Json.obj [("a", Json.num 1), ("b", Json.num 2)])
        (Json.obj [("b", Json.num 3), ("c", Json.num 4)]) :=
  ⟨by decide, by decide,
    claim_c4_merge_absorption _ _ (by decide) (by decide)⟩

/-- C6: when both inputs of the merge are objects, the merged object
keeps every key of the old object, maps a key present in both to the
recursive merge of the two values, inserts a key only in the new object
with the new value, and retains a key only in the old object unchanged;
when the inputs are not both objects the result is the new value; and
merging `{"a":1,"b":2}` with `{"b":3,"c":4}` yields `{"a":1,"b":3,"c":4}`. -/
theorem claim_c6_merge_object_semantics :
    (∀ (lo ln : List (String × Json)), (Json.keysOf ln).Nodup → ∀ k : String,
        Json.getField (merge_configs (.obj lo) (.obj ln)) k =
          (match Json.mapGet lo k, Json.mapGet ln k with
           | some ov, some nv => some (merge_configs ov nv)
           | none, some nv => some nv
           | some ov, none => some ov
           | none, none => none)) ∧
    (∀ (lo ln : List (String × Json)) (k : String), (Json.keysOf ln).Nodup →
        k ∈ Json.keysOf lo →
        ∃ w, Json.getField (merge_configs (.obj lo) (.obj ln)) k = some w) ∧
    (∀ o n : Json, (o.isObj = true → n.isObj = true → False) → merge_configs o n = n) ∧
    merge_configs (.obj [("a", .num 1), ("b", .num 2)]) (.obj [("b", .num 3), ("c", .num 4)]) =
      .obj [("a", .num 1), ("b", .num 3), ("c", .num 4)] := by
  have hmain : ∀ (lo ln : List (String × Json)), (Json.keysOf ln).Nodup → ∀ k : String,
      Json.getField (merge_configs (.obj lo) (.obj ln)) k =
        (match Json.mapGet lo k, Json.mapGet ln k with
         | some ov, some nv => some (merge_configs ov nv)
         | none, some nv => some nv
         | some ov, none => some ov
         | none, none => none) := by
    intro lo ln hnd k
    rw [merge_configs, Json.getField]
    rw [mapGet_mergeFields ln lo hnd k]
    rcases hov : Json.mapGet lo k with _ | ov <;>
      rcases hnv : Json.mapGet ln k with _ | nv <;> simp
  refine ⟨hmain, ?_, ?_, ?_⟩
  · intro lo ln k hnd hk
    rw [hmain lo ln hnd k]
    obtain ⟨v, hv⟩ := Json.mapGet_isSome_of_mem hk
    rw [hv]
    rcases hnv : Json.mapGet ln k with _ | nv <;> simp
  · intro o n h
    cases o <;> cases n <;>
      first
        | exact (h rfl rfl).elim
        | (rw [merge_configs] <;> simp)
  · simp [merge_configs, mergeFields, Json.mapGet, Json.mapInsert]

theorem claim_c6_merge_object_semantics_witness :
    (Json.keysOf [("b", Json.num 3), ("c", Json.num 4)]).Nodup ∧
    Json.getField
        (merge_configs (.obj [("a", .num 1), ("b", .num 2)])
          (.obj [("b", .num 3), ("c", .num 4)])) "b" =
      some (merge_configs (.num 2) (.num 3)) := by
  refine ⟨by decide, ?_⟩
  have h := claim_c6_merge_object_semantics.1 [("a", Json.num 1), ("b", Json.num 2)]
    [("b", Json.num 3), ("c", Json.num 4)] (by decide) "b"
  simpa [Json.mapGet] using h

/-- C7: when `compare_values` reaches two unequal arrays of different
lengths it emits exactly one modified change at that path carrying both
whole arrays (no per-index changes beneath it); with equal lengths it
recurses per index with path suffix `[i]`; in particular comparing
`{"a":[1,2,3]}` with `{"a":[1,2]}` yields exactly one modified change at
path `a`. -/
theorem claim_c7_array_diff_semantics :
    (∀ (lo ln : List Json) (path : String), lo.length ≠ ln.length →
        compare_values (.arr lo) (.arr ln) path =
          [⟨path, "modified", some (.arr lo), some (.arr ln)⟩]) ∧
    (∀ (lo ln : List Json) (path : String), lo.length = ln.length →
        Json.arr lo ≠ Json.arr ln →
        compare_values (.arr lo) (.arr ln) path = compareIdx (lo.zip ln) path 0) ∧
    compare_configs (.obj [("a", .arr [.num 1, .num 2, .num 3])])
        (.obj [("a", .arr [.num 1, .num 2])]) =
      [⟨"a", "modified", some (.arr [.num 1, .num 2, .num 3]),
        some (.arr [.num 1, .num 2])⟩] := by
  refine ⟨?_, ?_, ?_⟩
  · intro lo ln path h
    exact compare_values_arr_ne_len h
  · intro lo ln path h hne
    exact compare_values_arr_eq_len h hne
  · simp [compare_configs, compare_values, compareKeys, compareKeyOne, allKeys,
      dedupKeysAux, Json.keysOf, Json.mapGet, childPath]

theorem claim_c7_array_diff_semantics_witness :
    ([Json.num 1, Json.num 2, Json.num 3].length ≠ [Json.num 1, Json.num 2].length) ∧
    compare_values (.arr [.num 1, .num 2, .num 3]) (.arr [.num 1, .num 2]) "a" =
      [⟨"a", "modified", some (.arr [.num 1, .num 2, .num 3]),
        some (.arr [.num 1, .num 2])⟩] :=
  ⟨by decide, claim_c7_array_diff_semantics.1 _ _ "a" (by decide)⟩

/-- C8: diff kinds are symmetric under swapping the arguments:
`compare(a, b)` contains an added change at path `p` exactly when
`compare(b, a)` contains a removed change at path `p`, and vice versa. -/
theorem claim_c8_diff_kind_symmetry (a b : Json) (p : String) :
    ((∃ c ∈ compare_configs a b, c.path = p ∧ c.change_type = "added") ↔
      (∃ c ∈ compare_configs b a, c.path = p ∧ c.change_type = "removed")) ∧
    ((∃ c ∈ compare_configs a b, c.path = p ∧ c.change_type = "removed") ↔
      (∃ c ∈ compare_configs b a, c.path = p ∧ c.change_type = "added")) := by
  have key : ∀ (x y : Json),
      (∃ c ∈ compare_configs x y, c.path = p ∧ c.change_type = "added") ↔
      (∃ c ∈ compare_configs y x, c.path = p ∧ c.change_type = "removed") := by
    intro x y
    constructor
    · rintro ⟨c, hc, hp, hk⟩
      rw [compare_configs] at hc
      rcases compare_values_shape (sizeOf x + sizeOf y) x y "" (le_refl _) c hc with
        ⟨_, ho, ⟨w, hw⟩⟩ | ⟨hk2, _, _⟩ | ⟨hk2, _, _⟩
      · have hc2 : c = ⟨p, "added", none, some w⟩ := by
          cases c
          simp_all
        rw [hc2] at hc
        have hmem := (compare_swap_aux (sizeOf x + sizeOf y) x y (le_refl _) "" p w).mp hc
        exact ⟨_, hmem, rfl, rfl⟩
      · exact absurd (hk.symm.trans hk2) (by decide)
      · exact absurd (hk.symm.trans hk2) (by decide)
    · rintro ⟨c, hc, hp, hk⟩
      rw [compare_configs] at hc
      rcases compare_values_shape (sizeOf y + sizeOf x) y x "" (le_refl _) c hc with
        ⟨hk2, _, _⟩ | ⟨_, ⟨w, hw⟩, ho⟩ | ⟨hk2, _, _⟩
      · exact absurd (hk.symm.trans hk2) (by decide)
      · have hc2 : c = ⟨p, "removed", some w, none⟩ := by
          cases c
          simp_all
        rw [hc2] at hc
        have hmem := (compare_swap_aux (sizeOf x + sizeOf y) x y
          (le_refl _) "" p w).mpr hc
        exact ⟨_, hmem, rfl, rfl⟩
      · exact absurd (hk.symm.trans hk2) (by decide)
  exact ⟨key a b, (key b a).symm⟩

-- ============================================================================
-- File-system model
-- ============================================================================

/-- Byte-prefix test (`str::starts_with`), via the character list. -/
def strStartsWith (s pre : String) : Bool := pre.data.isPrefixOf s.data

/-- Byte-suffix test (`str::ends_with`), via the character list. -/
def strEndsWith (s suf : String) : Bool := suf.data.isSuffixOf s.data

/-- Split a character list at every slash. -/
def splitSlashAux (cur : List Char) : List Char → List (List Char)
  | [] => [cur.reverse]
  | c :: rest =>
    if c = '/' then cur.reverse :: splitSlashAux [] rest
    else splitSlashAux (c :: cur) rest

/-- Path components of a path string. -/
def pathComps (p : String) : List String :=
  (splitSlashAux [] p.data).map (fun cs => String.mk cs)

/-- Lexical resolution of an absolute path as the operating system performs
it when a file below it is opened: empty and `.` components vanish and
`..` pops the previous component.  This models `fs::canonicalize` and the
kernel path walk for a symlink-free tree. -/
def resolvePath (p : String) : String :=
  let stack := (pathComps p).foldl
    (fun st c =>
      if c = "" ∨ c = "." then st
      else if c = ".." then st.dropLast
      else st ++ [c])
    ([] : List String)
  "/" ++ String.intercalate "/" stack

/-- `PathBuf::join`: an absolute right operand replaces the left. -/
def joinPath (dir rel : String) : String :=
  if strStartsWith rel "/" then rel else dir ++ "/" ++ rel

/-- The model home directory (`$HOME`). -/
def homeDir : String := "/home/user"

/-- `~/.config/opencode/oh-my-opencode.json` (config_service::get_config_path). -/
def configPath : String := homeDir ++ "/.config/opencode/oh-my-opencode.json"

/-- `~/.config/opencode/backups` (the backup directory). -/
def backupDirPath : String := homeDir ++ "/.config/opencode/backups"

/-- `~/.config/OMO-Switch/presets` (preset_service::get_presets_dir). -/
def presetsDirPath : String := homeDir ++ "/.config/OMO-Switch/presets"

/-- One file of the backup directory: name, parsed JSON content, and the
creation timestamp reported by the file metadata (ms). -/
structure BackupFile where
  name : String
  content : Json
  createdTs : Nat
deriving Repr, DecidableEq

/-- The file-system and clock state the reconciliation core touches.
`backups` is the backup directory in `read_dir` enumeration order with
newly created files appended; `presetFiles` maps resolved absolute paths
of JSON files outside the backup directory (presets and anything a
traversal path reaches) to their parsed content; `activePreset` is the
raw text of the active-preset pointer file; `settings` is the parsed
`max_backup_records` of import-export-settings.json. -/
structure SysState where
  config : Option Json
  configBak : Option Json
  backups : List BackupFile
  settings : Option Nat
  presetFiles : List (String × Json)
  activePreset : Option String
  snapshot : Option (Nat × Json)
  now : Nat
deriving Repr, DecidableEq

-- ============================================================================
-- config_service.rs
-- ============================================================================

/-- `read_omo_config`: fails when the canonical file is absent, else
returns its parsed content. -/
def read_omo_config (s : SysState) : Except String Json :=
  match s.config with
  | none => .error "config_file_not_found"
  | some c => .ok c

/-- `write_omo_config`: copy the existing canonical file to its `.bak`
sibling, then overwrite the canonical file. -/
def write_omo_config (cfg : Json) (s : SysState) : SysState :=
  { s with
    configBak := if s.config.isSome then s.config else s.configBak
    config := some cfg }

/-- `validate_config`: the root must be an object containing object
fields `agents` and `categories`. -/
def validate_config (config : Json) : Except String Unit :=
  match config with
  | .obj l =>
    match Json.mapGet l "agents" with
    | none => .error "config_missing_agents"
    | some a =>
      match Json.mapGet l "categories" with
      | none => .error "config_missing_categories"
      | some c =>
        if a.isObj = false then .error "agents_must_be_object"
        else if c.isObj = false then .error "categories_must_be_object"
        else .ok ()
  | _ => .error "config_root_must_be_object"

-- ============================================================================
-- import_export_service.rs
-- ============================================================================

def DEFAULT_MAX_BACKUP_RECORDS : Nat := 10

def MAX_BACKUP_RECORDS_UPPER : Nat := 500

/-- `normalize_max_backup_records`: `value.clamp(1, 500)`. -/
def normalize_max_backup_records (value : Nat) : Nat :=
  min (max value 1) MAX_BACKUP_RECORDS_UPPER

/-- `load_settings`: absent or unreadable settings degrade to the default;
a parsed value is normalized. -/
def load_settings (s : SysState) : Nat :=
  match s.settings with
  | none => DEFAULT_MAX_BACKUP_RECORDS
  | some v => normalize_max_backup_records v

/-- `save_settings`: persist the normalized value. -/
def save_settings (v : Nat) (s : SysState) : SysState :=
  { s with settings := some (normalize_max_backup_records v) }

/-- The managed-file test used by listing, pruning and clearing: the
filename carries a provenance prefix and the `.json` extension. -/
def isManagedName (name : String) : Bool :=
  (strStartsWith name "oh-my-opencode_" || strStartsWith name "export_") &&
    strEndsWith name ".json"

/-- Stable insertion of one entry into a list sorted by creation
timestamp descending: the entry goes in front of the first entry it is
at least as new as. -/
def insertDesc (b : BackupFile) : List BackupFile → List BackupFile
  | [] => [b]
  | x :: rest =>
    if x.createdTs ≤ b.createdTs then b :: x :: rest else x :: insertDesc b rest

/-- The stable descending sort `sort_by(|a, b| b.1.cmp(&a.1))` of the
source; every stable sort computes the same list, and this insertion
sort is stable (equal timestamps keep their enumeration order). -/
def sortByTsDesc : List BackupFile → List BackupFile
  | [] => []
  | x :: rest => insertDesc x (sortByTsDesc rest)

/-- `get_managed_backup_entries_with_ts`: managed files of the backup
directory sorted by creation timestamp descending (`sort_by` is stable). -/
def get_managed_backup_entries_with_ts (s : SysState) : List BackupFile :=
  sortByTsDesc (s.backups.filter (fun b => isManagedName b.name))

/-- `prune_backup_history_to_limit`: delete every managed entry beyond the
normalized limit, newest first; returns the number of deleted files. -/
def prune_backup_history_to_limit (limit : Nat) (s : SysState) : Nat × SysState :=
  let normalized_limit := normalize_max_backup_records limit
  let entries := get_managed_backup_entries_with_ts s
  if entries.length ≤ normalized_limit then (0, s)
  else
    let doomed := entries.drop normalized_limit
    (doomed.length,
      { s with
        backups := s.backups.filter
          (fun b => !((doomed.map BackupFile.name).contains b.name)) })

/-- `get_max_backup_records`. -/
def get_max_backup_records (s : SysState) : Nat := load_settings s

/-- `set_max_backup_records`: persist the clamped limit, then prune. -/
def set_max_backup_records (limit : Nat) (s : SysState) : Nat × SysState :=
  let normalized := normalize_max_backup_records limit
  let s1 := save_settings normalized s
  let s2 := (prune_backup_history_to_limit normalized s1).2
  (normalized, s2)

/-- The backup filename timestamp `%Y%m%d_%H%M%S_%3f` rendered from the
model clock, as the decimal clock value (a stand-in for the formatted
local time; only its role as filename text matters to the claims). -/
def tsFormat (ts : Nat) : String := toString ts

/-- The `while backup_path.exists()` collision loop: try
`{base}_{idx}.json` for increasing `idx`.  Fuel bounds the search; the
Rust loop always terminates on a real directory because the candidate
names are pairwise distinct, and every theorem below only concerns runs
in which the search succeeded. -/
def freshBackupNameAux (base : String) (existing : List String) : Nat → Nat → Option String
  | 0, _ => none
  | fuel + 1, idx =>
    let cand := base ++ "_" ++ toString idx ++ ".json"
    if existing.contains cand then freshBackupNameAux base existing fuel (idx + 1)
    else some cand

/-- Backup filename generation of `backup_current_config_with_prefix`:
`{prefix}_{timestamp}.json`, with a numeric suffix when taken. -/
def freshBackupName (pfx : String) (ts : Nat) (existing : List String) : Option String :=
  let base := pfx ++ "_" ++ tsFormat ts
  if existing.contains (base ++ ".json") then
    freshBackupNameAux base existing (existing.length + 1) 1
  else some (base ++ ".json")

/-- `backup_current_config_with_prefix` (the `prefix` argument is spelt
`tag` here): read the canonical document, write it to a fresh managed
backup file, then prune to the retention limit. -/
def backup_current_config_with_tag (tag : String) (s : SysState) :
    Except String SysState :=
  match s.config with
  | none => .error "config_file_not_found"
  | some config =>
    match freshBackupName tag s.now (s.backups.map BackupFile.name) with
    | none => .error "backup_name_search_exhausted"
    | some name =>
      let s1 := { s with backups := s.backups ++ [⟨name, config, s.now⟩] }
      let limit := get_max_backup_records s1
      .ok (prune_backup_history_to_limit limit s1).2

/-- `backup_current_config`: routine backups use the `oh-my-opencode` tag. -/
def backup_current_config (s : SysState) : Except String SysState :=
  backup_current_config_with_tag "oh-my-opencode" s

/-- `ensure_backup_path`: the target must exist, canonicalize into the
backup directory, carry the `.json` extension and a managed provenance
prefix.  Returns the filename inside the backup directory. -/
def ensure_backup_path (path : String) (s : SysState) : Except String String :=
  let target := resolvePath path
  match s.backups.find? (fun b => backupDirPath ++ "/" ++ b.name == target) with
  | none => .error "backup_file_not_found"
  | some b =>
    if strStartsWith target (backupDirPath ++ "/") = false then .error "illegal_backup_path"
    else if strEndsWith b.name ".json" = false then .error "only_json_backup"
    else if (strStartsWith b.name "oh-my-opencode_" || strStartsWith b.name "export_") = false
      then .error "only_managed_backup"
    else .ok b.name

/-- `restore_from_backup`: gate the path, parse and validate the backup,
take a fresh backup of the current canonical document, then write the
restored document as the new canonical document. -/
def restore_from_backup (path : String) (s : SysState) : Except String SysState := do
  let name ← ensure_backup_path path s
  match s.backups.find? (fun b => b.name == name) with
  | none => .error "backup_file_not_found"
  | some b => do
    validate_config b.content
    let s1 ← backup_current_config s
    .ok (write_omo_config b.content s1)

/-- `delete_backup_entry`: gate the path, then remove the file. -/
def delete_backup_entry (path : String) (s : SysState) : Except String SysState := do
  let name ← ensure_backup_path path s
  .ok { s with backups := s.backups.filter (fun b => b.name != name) }

-- ============================================================================
-- preset_service.rs
-- ============================================================================

/-- The reserved metadata key. -/
def META_FIELD : String := "__meta__"

/-- `PresetMeta`: creation time, update time (both Unix ms) and a
forward-reserved version number. -/
structure PresetMeta where
  created_at : Nat
  updated_at : Nat
  version : Nat
deriving Repr, DecidableEq

/-- `PresetMeta::new`: both timestamps are the current time, version 1. -/
def PresetMeta.new (now : Nat) : PresetMeta :=
  ⟨now, now, 1⟩

/-- `PresetMeta::update`: refresh `updated_at`, keep `created_at`. -/
def PresetMeta.update (m : PresetMeta) (now : Nat) : PresetMeta :=
  { m with updated_at := now }

/-- `PresetMeta::from_value`: serde deserialization of the metadata
object; requires the three fields as non-negative integers, tolerates
extra fields, fails otherwise. -/
def PresetMeta.from_value (v : Json) : Option PresetMeta :=
  match v with
  | .obj l =>
    match Json.mapGet l "created_at", Json.mapGet l "updated_at", Json.mapGet l "version" with
    | some (.num c), some (.num u), some (.num ver) =>
      if c < 0 ∨ u < 0 ∨ ver < 0 then none
      else some ⟨c.toNat, u.toNat, ver.toNat⟩
    | _, _, _ => none
  | _ => none

/-- `PresetMeta::to_value`. -/
def PresetMeta.to_value (m : PresetMeta) : Json :=
  .obj [("created_at", .num m.created_at), ("updated_at", .num m.updated_at),
    ("version", .num m.version)]

/-- Removal from a JSON object (`Map::remove`). -/
def Json.mapRemove (l : List (String × Json)) (k : String) : List (String × Json) :=
  match l with
  | [] => []
  | (k2, v) :: rest => if k2 = k then rest else (k2, v) :: Json.mapRemove rest k

/-- `get_preset_path`: `presets_dir.join(format!("{}.json", name))`. -/
def get_preset_path (name : String) : String :=
  joinPath presetsDirPath (name ++ ".json")

/-- The resolved absolute path a preset file access reaches. -/
def presetFileKey (name : String) : String :=
  resolvePath (get_preset_path name)

/-- `read_preset_meta_from_file` on the parsed content of an existing
preset file: `preset.get("__meta__")` then `PresetMeta::from_value`. -/
def read_preset_meta_from_file (content : Json) : Option PresetMeta :=
  match content with
  | .obj l =>
    match Json.mapGet l META_FIELD with
    | some mv => PresetMeta.from_value mv
    | none => none
  | _ => none

/-- `build_preset_with_meta`: embed fresh or refreshed metadata into a
copy of the document (only when the document is an object). -/
def build_preset_with_meta (config : Json) (existing : Option Json) (now : Nat) : Json :=
  let meta :=
    match existing with
    | some content =>
      ((read_preset_meta_from_file content).getD (PresetMeta.new now)).update now
    | none => PresetMeta.new now
  match config with
  | .obj l => .obj (Json.mapInsert l META_FIELD meta.to_value)
  | other => other

/-- Character containment (`str::contains(char)`), via the character
list. -/
def strContainsChar (s : String) (c : Char) : Bool := s.data.contains c

/-- `save_preset`: name validation (empty, path separators), then write
the live document with embedded metadata under the preset file. -/
def save_preset (name : String) (s : SysState) : Except String SysState :=
  if name = "" then .error "preset_name_empty"
  else if strContainsChar name '/' || strContainsChar name '\\' then
    .error "preset_name_invalid_path"
  else do
    let config ← read_omo_config s
    let key := presetFileKey name
    let preset := build_preset_with_meta config (Json.mapGet s.presetFiles key) s.now
    .ok { s with presetFiles := Json.mapInsert s.presetFiles key preset }

/-- `set_active_preset`: overwrite the pointer file with the name. -/
def set_active_preset (name : String) (s : SysState) : SysState :=
  { s with activePreset := some name }

/-- Whitespace trimming (`str::trim`), via the character list. -/
def strTrim (s : String) : String :=
  String.mk ((s.data.dropWhile Char.isWhitespace).reverse.dropWhile Char.isWhitespace).reverse

/-- `get_active_preset`: read the pointer file, trim it, and treat empty
content like an absent file. -/
def get_active_preset (s : SysState) : Option String :=
  match s.activePreset with
  | none => none
  | some c =>
    let t := strTrim c
    if t = "" then none else some t

/-- `load_preset`: read the named preset, strip `__meta__`, write the
rest as the new canonical document, and point the active preset at it. -/
def load_preset (name : String) (s : SysState) : Except String SysState :=
  if name = "" then .error "preset_name_empty"
  else
    match Json.mapGet s.presetFiles (presetFileKey name) with
    | none => .error "preset_not_found"
    | some content =>
      let cfg :=
        match content with
        | .obj l => Json.obj (Json.mapRemove l META_FIELD)
        | other => other
      .ok (set_active_preset name (write_omo_config cfg s))

/-- `get_preset_config`: read the named preset and strip `__meta__`
without touching the canonical document. -/
def get_preset_config (name : String) (s : SysState) : Except String Json :=
  if name = "" then .error "preset_name_empty"
  else
    match Json.mapGet s.presetFiles (presetFileKey name) with
    | none => .error "preset_not_found"
    | some content =>
      .ok (match content with
        | .obj l => Json.obj (Json.mapRemove l META_FIELD)
        | other => other)

/-- `delete_preset`: remove the preset file after the empty-name and
existence checks. -/
def delete_preset (name : String) (s : SysState) : Except String SysState :=
  if name = "" then .error "preset_name_empty"
  else
    match Json.mapGet s.presetFiles (presetFileKey name) with
    | none => .error "preset_not_found"
    | some _ => .ok { s with presetFiles := Json.mapRemove s.presetFiles (presetFileKey name) }

/-- `update_preset`: re-save the live document into an existing preset,
preserving the metadata semantics of `save_preset`. -/
def update_preset (name : String) (s : SysState) : Except String SysState :=
  if name = "" then .error "preset_name_empty"
  else do
    let config ← read_omo_config s
    let key := presetFileKey name
    match Json.mapGet s.presetFiles key with
    | none => .error "preset_not_found"
    | some existing =>
      let preset := build_preset_with_meta config (some existing) s.now
      .ok { s with presetFiles := Json.mapInsert s.presetFiles key preset }

/-- `PresetUpdateRequest`. -/
structure PresetUpdateRequest where
  agent_name : String
  model : String
  variant : Option String
deriving Repr, DecidableEq

/-- One `if let` chain of `apply_updates_to_preset`: update the entry of
`field` (`agents` or `categories`) named by the request, when present
and an object. -/
def applyOneUpdate (cfg : Json) (field : String) (u : PresetUpdateRequest) : Json :=
  match cfg with
  | .obj l =>
    match Json.mapGet l field with
    | some (.obj tree) =>
      match Json.mapGet tree u.agent_name with
      | some (.obj agent) =>
        let agent1 := Json.mapInsert agent "model" (.str u.model)
        let agent2 :=
          match u.variant with
          | some v =>
            if v ≠ "none" then Json.mapInsert agent1 "variant" (.str v)
            else Json.mapRemove agent1 "variant"
          | none => agent1
        .obj (Json.mapInsert l field (.obj (Json.mapInsert tree u.agent_name (.obj agent2))))
      | _ => cfg
    | _ => cfg
  | _ => cfg

/-- `apply_updates_to_preset`: apply the model edits to the stripped
preset document (both trees), re-embed refreshed metadata and write the
preset file back, leaving the canonical document and the active pointer
alone. -/
def apply_updates_to_preset (name : String) (updates : List PresetUpdateRequest)
    (s : SysState) : Except String SysState :=
  if name = "" then .error "preset_name_empty"
  else
    let key := presetFileKey name
    match Json.mapGet s.presetFiles key with
    | none => .error "preset_not_found"
    | some _ => do
      let cfg0 ← get_preset_config name s
      let cfg := updates.foldl
        (fun c u => applyOneUpdate (applyOneUpdate c "agents" u) "categories" u) cfg0
      let preset := build_preset_with_meta cfg (Json.mapGet s.presetFiles key) s.now
      .ok { s with presetFiles := Json.mapInsert s.presetFiles key preset }

-- ============================================================================
-- config_cache_service.rs (snapshot) and config_cache_commands.rs
-- ============================================================================

/-- `save_config_snapshot`: overwrite the single snapshot file with the
current timestamp and document. -/
def save_config_snapshot (config : Json) (s : SysState) : SysState :=
  { s with snapshot := some (s.now, config) }

/-- `AcceptExternalChangesResult`. -/
structure AcceptExternalChangesResult where
  config : Json
  active_preset : Option String
  preset_synced : Bool
  preset_sync_error : Option String
deriving Repr, DecidableEq

/-- `accept_external_changes`: read and validate the live document,
refresh the snapshot, migrate a legacy `__builtin__`-prefixed active
pointer to `default`, then sync the active preset (a sync failure is
reported, not fatal).  The pointer write cannot fail in this model, so
the corresponding error branch of the source is not represented. -/
def accept_external_changes (s : SysState) :
    Except String (AcceptExternalChangesResult × SysState) := do
  let config ← read_omo_config s
  validate_config config
  let s1 := save_config_snapshot config s
  let active0 := get_active_preset s1
  let migrated :=
    match active0 with
    | some n =>
      if strStartsWith n "__builtin__" then (some "default", set_active_preset "default" s1)
      else (active0, s1)
    | none => (none, s1)
  match migrated.1 with
  | some n =>
    match update_preset n migrated.2 with
    | .ok s3 => .ok (⟨config, some n, true, none⟩, s3)
    | .error e => .ok (⟨config, some n, false, some e⟩, migrated.2)
  | none => .ok (⟨config, none, false, none⟩, migrated.2)

-- ============================================================================
-- Sorting and pruning lemmas
-- ============================================================================

theorem insertDesc_perm (b : BackupFile) :
    ∀ l : List BackupFile, List.Perm (insertDesc b l) (b :: l) := by
  intro l
  induction l with
  | nil => rw [insertDesc]
  | cons x rest ih =>
    rw [insertDesc]
    by_cases h : x.createdTs ≤ b.createdTs
    · rw [if_pos h]
    · rw [if_neg h]
      exact List.Perm.trans (List.Perm.cons x ih) (List.Perm.swap b x rest)

theorem sortByTsDesc_perm : ∀ l : List BackupFile, List.Perm (sortByTsDesc l) l := by
  intro l
  induction l with
  | nil => rw [sortByTsDesc]
  | cons x rest ih =>
    rw [sortByTsDesc]
    exact List.Perm.trans (insertDesc_perm _ _) (List.Perm.cons x ih)

theorem insertDesc_pairwise (b : BackupFile) :
    ∀ l : List BackupFile,
      l.Pairwise (fun a c => c.createdTs ≤ a.createdTs) →
      (insertDesc b l).Pairwise (fun a c => c.createdTs ≤ a.createdTs) := by
  intro l
  induction l with
  | nil => intro _; simp [insertDesc]
  | cons x rest ih =>
    intro hp
    obtain ⟨hx, hrest⟩ := List.pairwise_cons.mp hp
    rw [insertDesc]
    by_cases h : x.createdTs ≤ b.createdTs
    · rw [if_pos h]
      refine List.pairwise_cons.mpr ⟨?_, hp⟩
      intro c hc
      rcases List.mem_cons.mp hc with h1 | h1
      · rw [h1]; exact h
      · exact le_trans (hx c h1) h
    · rw [if_neg h]
      refine List.pairwise_cons.mpr ⟨?_, ih hrest⟩
      intro c hc
      rcases (insertDesc_perm b rest).mem_iff.mp hc with h1
      rcases List.mem_cons.mp h1 with h2 | h2
      · rw [h2]; omega
      · exact hx c h2

theorem sortByTsDesc_pairwise :
    ∀ l : List BackupFile,
      (sortByTsDesc l).Pairwise (fun a c => c.createdTs ≤ a.createdTs) := by
  intro l
  induction l with
  | nil => rw [sortByTsDesc]; exact List.Pairwise.nil
  | cons x rest ih =>
    rw [sortByTsDesc]
    exact insertDesc_pairwise x _ ih

theorem nodup_subset_length {l1 l2 : List String} (h1 : l1.Nodup) (h2 : l1 ⊆ l2) :
    l1.length ≤ l2.length := by
  calc l1.length = l1.toFinset.card := (List.toFinset_card_of_nodup h1).symm
    _ ≤ l2.toFinset.card := Finset.card_le_card (fun x hx => by
        rw [List.mem_toFinset] at hx ⊢
        exact h2 hx)
    _ ≤ l2.length := List.toFinset_card_le l2

theorem strStartsWith_append (a b : String) : strStartsWith (a ++ b) a = true := by
  rw [strStartsWith]
  rw [List.isPrefixOf_iff_prefix]
  have : (a ++ b).data = a.data ++ b.data := by
    rcases a with ⟨da⟩
    rcases b with ⟨db⟩
    rfl
  rw [this]
  exact List.prefix_append _ _

theorem strEndsWith_append (a b : String) : strEndsWith (a ++ b) b = true := by
  rw [strEndsWith]
  rw [List.isSuffixOf_iff_suffix]
  have : (a ++ b).data = a.data ++ b.data := by
    rcases a with ⟨da⟩
    rcases b with ⟨db⟩
    rfl
  rw [this]
  exact List.suffix_append _ _

theorem freshBackupNameAux_spec {base : String} {existing : List String} {nm : String} :
    ∀ {fuel idx : Nat}, freshBackupNameAux base existing fuel idx = some nm →
      existing.contains nm = false ∧ ∃ r, nm = base ++ r ∧ strEndsWith nm ".json" = true := by
  intro fuel
  induction fuel with
  | zero => intro idx h; simp [freshBackupNameAux] at h
  | succ fuel ih =>
    intro idx h
    rw [freshBackupNameAux] at h
    by_cases hc : existing.contains (base ++ "_" ++ toString idx ++ ".json") = true
    · rw [if_pos hc] at h
      exact ih h
    · rw [if_neg hc] at h
      cases h
      refine ⟨by simpa using hc, ⟨"_" ++ (toString idx ++ ".json"), ?_, ?_⟩⟩
      · rw [String.append_assoc, String.append_assoc]
      · have := strEndsWith_append (base ++ "_" ++ toString idx) ".json"
        exact this

theorem freshBackupName_spec {pfx : String} {ts : Nat} {existing : List String} {nm : String}
    (h : freshBackupName pfx ts existing = some nm) :
    existing.contains nm = false ∧
    strStartsWith nm (pfx ++ "_") = true ∧
    strEndsWith nm ".json" = true := by
  rw [freshBackupName] at h
  by_cases hc : existing.contains (pfx ++ "_" ++ tsFormat ts ++ ".json") = true
  · rw [if_pos hc] at h
    obtain ⟨h1, ⟨r, h2, h3⟩⟩ := freshBackupNameAux_spec h
    refine ⟨h1, ?_, h3⟩
    rw [h2, String.append_assoc]
    exact strStartsWith_append (pfx ++ "_") _
  · rw [if_neg hc] at h
    cases h
    refine ⟨by simpa using hc, ?_, ?_⟩
    · rw [String.append_assoc]
      exact strStartsWith_append (pfx ++ "_") _
    · exact strEndsWith_append (pfx ++ "_" ++ tsFormat ts) ".json"

theorem isManagedName_fresh {tag : String} {ts : Nat} {existing : List String} {nm : String}
    (htag : tag = "oh-my-opencode" ∨ tag = "export")
    (h : freshBackupName tag ts existing = some nm) :
    isManagedName nm = true := by
  obtain ⟨_, h2, h3⟩ := freshBackupName_spec h
  rw [isManagedName, Bool.and_eq_true, Bool.or_eq_true]
  rcases htag with ht | ht <;> subst ht
  · exact ⟨Or.inl h2, h3⟩
  · exact ⟨Or.inr h2, h3⟩

theorem contains_iff {l : List String} {a : String} : l.contains a = true ↔ a ∈ l := by
  simp [List.contains, List.elem_iff]

/-- Behaviour of one prune pass on a directory without duplicate
filenames: at most the normalized limit of managed files survive, only
managed files are deleted, survivors are no older than any deleted file,
and nothing else changes. -/
theorem prune_spec (limit : Nat) (s : SysState)
    (hnd : (s.backups.map BackupFile.name).Nodup) :
    ((prune_backup_history_to_limit limit s).2.backups.filter
        (fun b => isManagedName b.name)).length ≤ normalize_max_backup_records limit ∧
    (∀ b ∈ s.backups, isManagedName b.name = false →
      b ∈ (prune_backup_history_to_limit limit s).2.backups) ∧
    (∀ b ∈ s.backups, b ∉ (prune_backup_history_to_limit limit s).2.backups →
      isManagedName b.name = true) ∧
    (∀ b ∈ s.backups, b ∉ (prune_backup_history_to_limit limit s).2.backups →
      ∀ g ∈ (prune_backup_history_to_limit limit s).2.backups, isManagedName g.name = true →
        b.createdTs ≤ g.createdTs) ∧
    ((prune_backup_history_to_limit limit s).2.settings = s.settings) ∧
    ((prune_backup_history_to_limit limit s).2.config = s.config) ∧
    (∀ b ∈ (prune_backup_history_to_limit limit s).2.backups, b ∈ s.backups) := by
  have hperm : List.Perm (get_managed_backup_entries_with_ts s)
      (s.backups.filter (fun b => isManagedName b.name)) := sortByTsDesc_perm _
  have hpair := sortByTsDesc_pairwise (s.backups.filter (fun b => isManagedName b.name))
  by_cases hlen : (get_managed_backup_entries_with_ts s).length ≤
      normalize_max_backup_records limit
  · simp only [prune_backup_history_to_limit, if_pos hlen]
    refine ⟨?_, ?_, ?_, ?_, by trivial, by trivial, ?_⟩
    · rw [← hperm.length_eq]
      exact hlen
    · intro b hb _; exact hb
    · intro b hb hnb; exact absurd hb hnb
    · intro b hb hnb; exact absurd hb hnb
    · intro b hb; exact hb
  · simp only [prune_backup_history_to_limit, if_neg hlen]
    set norm := normalize_max_backup_records limit with hnorm
    set E := get_managed_backup_entries_with_ts s with hE
    set doomed := E.drop norm with hdoomed
    have hkept_iff : ∀ b : BackupFile,
        b ∈ s.backups.filter (fun b => !((doomed.map BackupFile.name).contains b.name)) ↔
        b ∈ s.backups ∧ b.name ∉ doomed.map BackupFile.name := by
      intro b
      rw [List.mem_filter]
      constructor
      · rintro ⟨h1, h2⟩
        refine ⟨h1, fun hc => ?_⟩
        rw [Bool.not_eq_true', ← Bool.not_eq_true] at h2
        exact h2 (contains_iff.mpr hc)
      · rintro ⟨h1, h2⟩
        refine ⟨h1, ?_⟩
        rw [Bool.not_eq_true']
        rw [← Bool.not_eq_true]
        intro hc
        exact h2 (contains_iff.mp hc)
    have hEnodup : (E.map BackupFile.name).Nodup := by
      rw [(hperm.map BackupFile.name).nodup_iff]
      exact ((List.filter_sublist _).map BackupFile.name).nodup hnd
    have hval_mem : ∀ b ∈ E, b ∈ s.backups ∧ isManagedName b.name = true := by
      intro b hb
      have := hperm.mem_iff.mp hb
      rw [List.mem_filter] at this
      exact this
    have hinj := List.inj_on_of_nodup_map hnd
    have hdel_doomed : ∀ b ∈ s.backups, b.name ∈ doomed.map BackupFile.name → b ∈ doomed := by
      intro b hb hname
      obtain ⟨d, hd, hdname⟩ := List.mem_map.mp hname
      have hdmem : d ∈ s.backups := (hval_mem d ((List.drop_subset _ _) hd)).1
      have : d = b := hinj hdmem hb hdname
      rw [← this]
      exact hd
    have hkept_take : ∀ g, g ∈ s.backups → g.name ∉ doomed.map BackupFile.name →
        isManagedName g.name = true → g ∈ E.take norm := by
      intro g hg hgname hgman
      have hgE : g ∈ E := hperm.mem_iff.mpr (List.mem_filter.mpr ⟨hg, hgman⟩)
      rcases List.mem_append.mp ((List.take_append_drop norm E) ▸ hgE) with h1 | h1
      · exact h1
      · exact absurd (List.mem_map.mpr ⟨g, h1, rfl⟩) hgname
    have hpair2 : List.Pairwise (fun a c => c.createdTs ≤ a.createdTs)
        (E.take norm ++ E.drop norm) := by
      rw [List.take_append_drop]
      exact hpair
    refine ⟨?_, ?_, ?_, ?_, by trivial, by trivial, ?_⟩
    · -- managed survivors fit the limit
      set K := (s.backups.filter
        (fun b => !((doomed.map BackupFile.name).contains b.name))).filter
          (fun b => isManagedName b.name) with hK
      have hKnodup : (K.map BackupFile.name).Nodup :=
        (((List.filter_sublist _).trans (List.filter_sublist _)).map BackupFile.name).nodup hnd
      have hKsub : K.map BackupFile.name ⊆ (E.take norm).map BackupFile.name := by
        intro x hx
        obtain ⟨b, hb, hbname⟩ := List.mem_map.mp hx
        rw [hK, List.mem_filter] at hb
        obtain ⟨hb1, hb2⟩ := hb
        obtain ⟨hb3, hb4⟩ := (hkept_iff b).mp hb1
        exact List.mem_map.mpr ⟨b, hkept_take b hb3 hb4 hb2, hbname⟩
      calc K.length = (K.map BackupFile.name).length := (List.length_map _ _).symm
        _ ≤ ((E.take norm).map BackupFile.name).length := nodup_subset_length hKnodup hKsub
        _ = (E.take norm).length := List.length_map _ _
        _ ≤ norm := List.length_take_le _ _
    · intro b hb hman
      refine (hkept_iff b).mpr ⟨hb, fun hc => ?_⟩
      have hbd := hdel_doomed b hb hc
      have := (hval_mem b ((List.drop_subset _ _) hbd)).2
      rw [hman] at this
      cases this
    · intro b hb hnb
      by_cases hman : isManagedName b.name = true
      · exact hman
      · exfalso
        refine hnb ((hkept_iff b).mpr ⟨hb, fun hc => ?_⟩)
        have hbd := hdel_doomed b hb hc
        exact hman (hval_mem b ((List.drop_subset _ _) hbd)).2
    · intro b hb hnb g hg hgman
      have hbname : b.name ∈ doomed.map BackupFile.name := by
        by_contra hc
        exact hnb ((hkept_iff b).mpr ⟨hb, hc⟩)
      have hbd := hdel_doomed b hb hbname
      obtain ⟨hg1, hg2⟩ := (hkept_iff g).mp hg
      have hgt := hkept_take g hg1 hg2 hgman
      exact (List.pairwise_append.mp hpair2).2.2 g hgt b hbd
    · intro b hb
      exact ((hkept_iff b).mp hb).1

theorem normalize_pos (limit : Nat) : 1 ≤ normalize_max_backup_records limit := by
  rw [normalize_max_backup_records, MAX_BACKUP_RECORDS_UPPER]
  omega

theorem normalize_le_upper (limit : Nat) :
    normalize_max_backup_records limit ≤ MAX_BACKUP_RECORDS_UPPER := by
  rw [normalize_max_backup_records]
  omega

theorem normalize_records_idem (limit : Nat) :
    normalize_max_backup_records (normalize_max_backup_records limit) =
      normalize_max_backup_records limit := by
  rw [normalize_max_backup_records, normalize_max_backup_records, MAX_BACKUP_RECORDS_UPPER]
  omega

/-- A managed entry strictly newer than every other managed entry
survives any prune pass (the retention limit is at least 1). -/
theorem prune_keeps_strict_newest (limit : Nat) (s : SysState) (e : BackupFile)
    (hnd : (s.backups.map BackupFile.name).Nodup)
    (hmem : e ∈ s.backups)
    (hman : isManagedName e.name = true)
    (hnewest : ∀ b ∈ s.backups, b ≠ e → isManagedName b.name = true →
      b.createdTs < e.createdTs) :
    e ∈ (prune_backup_history_to_limit limit s).2.backups := by
  have hperm : List.Perm (get_managed_backup_entries_with_ts s)
      (s.backups.filter (fun b => isManagedName b.name)) := sortByTsDesc_perm _
  have hpair := sortByTsDesc_pairwise (s.backups.filter (fun b => isManagedName b.name))
  by_cases hlen : (get_managed_backup_entries_with_ts s).length ≤
      normalize_max_backup_records limit
  · simp only [prune_backup_history_to_limit, if_pos hlen]
    exact hmem
  · simp only [prune_backup_history_to_limit, if_neg hlen]
    set norm := normalize_max_backup_records limit with hnormdef
    set E := get_managed_backup_entries_with_ts s with hE
    rw [List.mem_filter]
    refine ⟨hmem, ?_⟩
    rw [Bool.not_eq_eq_eq_not, Bool.not_true, ← Bool.not_eq_true]
    intro hc
    have hcmem := contains_iff.mp hc
    obtain ⟨d, hd, hdname⟩ := List.mem_map.mp hcmem
    have hval_mem : ∀ b ∈ E, b ∈ s.backups ∧ isManagedName b.name = true := by
      intro b hb
      have := hperm.mem_iff.mp hb
      rw [List.mem_filter] at this
      exact this
    have hdmem : d ∈ s.backups := (hval_mem d ((List.drop_subset _ _) hd)).1
    have hinj := List.inj_on_of_nodup_map hnd
    have hde : d = e := hinj hdmem hmem hdname
    subst hde
    -- d (= e) is in the dropped tail; produce a kept entry at least as new
    have hlenE : norm < E.length := by omega
    have htake_pos : 0 < (E.take norm).length := by
      rw [List.length_take]
      have := normalize_pos limit
      omega
    obtain ⟨x, hx⟩ := List.exists_mem_of_length_pos htake_pos
    have hpair2 : List.Pairwise (fun a c => c.createdTs ≤ a.createdTs)
        (E.take norm ++ E.drop norm) := by
      rw [List.take_append_drop]
      exact hpair
    have hle := (List.pairwise_append.mp hpair2).2.2 x hx d hd
    have hxmem := hval_mem x ((List.take_subset _ _) hx)
    have hEnodup : E.Nodup := by
      refine List.Nodup.of_map BackupFile.name ?_
      rw [(hperm.map BackupFile.name).nodup_iff]
      exact ((List.filter_sublist _).map BackupFile.name).nodup hnd
    have hxd : x ≠ d := by
      intro hxd
      have hdisj : List.Disjoint (E.take norm) (E.drop norm) := by
        have h3 := hEnodup
        rw [← List.take_append_drop norm E] at h3
        exact List.disjoint_of_nodup_append h3
      exact hdisj (hxd ▸ hx) hd
    have := hnewest x hxmem.1 hxd hxmem.2
    omega

/-- A successful `backup_current_config_with_prefix` run on a directory
without duplicate filenames, whose clock is strictly ahead of every
managed backup, leaves a new managed backup holding the canonical
document; the canonical file itself is untouched. -/
theorem backup_creates_entry {tag : String} {s s1 : SysState} {cfg : Json}
    (htag : tag = "oh-my-opencode" ∨ tag = "export")
    (hnd : (s.backups.map BackupFile.name).Nodup)
    (hcfg : s.config = some cfg)
    (hnewest : ∀ b ∈ s.backups, isManagedName b.name = true → b.createdTs < s.now)
    (hok : backup_current_config_with_tag tag s = .ok s1) :
    (∃ b ∈ s1.backups, isManagedName b.name = true ∧ b.content = cfg ∧
      b.createdTs = s.now) ∧
    s1.config = s.config := by
  rw [backup_current_config_with_tag, hcfg] at hok
  rcases hfresh : freshBackupName tag s.now (s.backups.map BackupFile.name) with _ | nm
  · rw [hfresh] at hok
    cases hok
  · rw [hfresh] at hok
    cases hok
    set e : BackupFile := ⟨nm, cfg, s.now⟩ with he
    set sApp : SysState := { s with config := some cfg, backups := s.backups ++ [e] } with hsApp
    obtain ⟨hfresh1, _, _⟩ := freshBackupName_spec hfresh
    have hman : isManagedName e.name = true := isManagedName_fresh htag hfresh
    have hnm_not_mem : nm ∉ s.backups.map BackupFile.name := by
      intro hc
      rw [contains_iff.mpr hc] at hfresh1
      cases hfresh1
    have hndApp : (sApp.backups.map BackupFile.name).Nodup := by
      rw [hsApp]
      simp only [List.map_append, List.map_cons, List.map_nil]
      rw [List.nodup_append]
      refine ⟨hnd, List.nodup_singleton _, ?_⟩
      intro x hx hxe
      rw [List.mem_singleton] at hxe
      rw [hxe] at hx
      exact hnm_not_mem hx
    have hmemApp : e ∈ sApp.backups := by
      rw [hsApp]
      exact List.mem_append.mpr (Or.inr (List.mem_singleton.mpr rfl))
    have hnewApp : ∀ b ∈ sApp.backups, b ≠ e → isManagedName b.name = true →
        b.createdTs < e.createdTs := by
      intro b hb hbe hbman
      rcases List.mem_append.mp (by rw [hsApp] at hb; exact hb) with h1 | h1
      · exact hnewest b h1 hbman
      · exact absurd (List.mem_singleton.mp h1) hbe
    have hkeep := prune_keeps_strict_newest (get_max_backup_records sApp) sApp e
      hndApp hmemApp hman hnewApp
    refine ⟨⟨e, hkeep, hman, rfl, rfl⟩, ?_⟩
    have hcfg2 := (prune_spec (get_max_backup_records sApp) sApp hndApp).2.2.2.2.2.1
    rw [hcfg2]
    exact hcfg.symm

-- ============================================================================
-- Claim theorems: backups (C9, C5, C2)
-- ============================================================================

/-- C9: setting the retention limit persists the value clamped to
`[1, 500]` and immediately prunes: afterwards at most that many managed
backup files remain, they are the newest by creation timestamp, and
files not matching the managed naming convention are never deleted.
The directory is assumed to hold no duplicate filenames, as any real
directory does. -/
theorem claim_c9_retention_bound (limit : Nat) (s : SysState)
    (hnd : (s.backups.map BackupFile.name).Nodup) :
    (set_max_backup_records limit s).1 = normalize_max_backup_records limit ∧
    (set_max_backup_records limit s).2.settings =
      some (normalize_max_backup_records limit) ∧
    1 ≤ normalize_max_backup_records limit ∧
    normalize_max_backup_records limit ≤ 500 ∧
    ((set_max_backup_records limit s).2.backups.filter
        (fun b => isManagedName b.name)).length ≤ normalize_max_backup_records limit ∧
    (∀ b ∈ s.backups, isManagedName b.name = false →
      b ∈ (set_max_backup_records limit s).2.backups) ∧
    (∀ b ∈ s.backups, b ∉ (set_max_backup_records limit s).2.backups →
      isManagedName b.name = true) ∧
    (∀ b ∈ s.backups, b ∉ (set_max_backup_records limit s).2.backups →
      ∀ g ∈ (set_max_backup_records limit s).2.backups, isManagedName g.name = true →
        b.createdTs ≤ g.createdTs) := by
  have hnd1 : ((save_settings (normalize_max_backup_records limit) s).backups.map
      BackupFile.name).Nodup := hnd
  have hp := prune_spec (normalize_max_backup_records limit)
    (save_settings (normalize_max_backup_records limit) s) hnd1
  rw [normalize_records_idem] at hp
  obtain ⟨h1, h2, h3, h4, h5, _, _⟩ := hp
  refine ⟨rfl, ?_, normalize_pos _, normalize_le_upper _, h1, h2, h3, h4⟩
  have : (save_settings (normalize_max_backup_records limit) s).settings =
      some (normalize_max_backup_records limit) := by
    rw [save_settings, normalize_records_idem]
  rw [← this]
  exact h5

-- ============================================================================
-- Preset metadata lemmas
-- ============================================================================

/-- Observation helper: the parsed metadata embedded in a preset file. -/
def presetMetaAt (s : SysState) (name : String) : Option PresetMeta :=
  match Json.mapGet s.presetFiles (presetFileKey name) with
  | some content => read_preset_meta_from_file content
  | none => none

theorem PresetMeta.from_to (m : PresetMeta) : PresetMeta.from_value m.to_value = some m := by
  rcases m with ⟨c, u, ver⟩
  rw [PresetMeta.to_value, PresetMeta.from_value]
  simp [Json.mapGet]

theorem build_preserves_meta {l : List (String × Json)} {content : Json} {m : PresetMeta}
    {now : Nat} (hm : read_preset_meta_from_file content = some m) :
    read_preset_meta_from_file (build_preset_with_meta (.obj l) (some content) now) =
      some ⟨m.created_at, now, m.version⟩ := by
  rw [build_preset_with_meta]
  simp only [hm, Option.getD]
  rw [read_preset_meta_from_file]
  rw [Json.mapGet_mapInsert_self]
  have : (m.update now) = (⟨m.created_at, now, m.version⟩ : PresetMeta) := by
    rcases m with ⟨c, u, ver⟩
    rfl
  rw [this]
  exact PresetMeta.from_to _

theorem build_fresh_meta {l : List (String × Json)} {now : Nat} :
    read_preset_meta_from_file (build_preset_with_meta (.obj l) none now) =
      some ⟨now, now, 1⟩ := by
  rw [build_preset_with_meta]
  rw [read_preset_meta_from_file]
  rw [Json.mapGet_mapInsert_self]
  exact PresetMeta.from_to _

theorem read_meta_some_obj {content : Json} {m : PresetMeta}
    (hm : read_preset_meta_from_file content = some m) :
    ∃ l, content = .obj l := by
  rcases content with _ | _ | _ | _ | _ | l
  all_goals simp [read_preset_meta_from_file] at hm
  exact ⟨l, rfl⟩

theorem applyOneUpdate_obj {l : List (String × Json)} (field : String)
    (u : PresetUpdateRequest) :
    ∃ l2, applyOneUpdate (.obj l) field u = .obj l2 := by
  rw [applyOneUpdate]
  rcases hf : Json.mapGet l field with _ | tree
  · exact ⟨l, by simp only [hf]⟩
  · rcases tree with _ | _ | _ | _ | xs | lt
    case obj =>
      rcases ha : Json.mapGet lt u.agent_name with _ | agent
      · exact ⟨l, by simp only [hf, ha]⟩
      · rcases agent with _ | _ | _ | _ | ys | la
        case obj =>
          simp only [hf, ha]
          exact ⟨_, rfl⟩
        all_goals exact ⟨l, by simp only [hf, ha]⟩
    all_goals exact ⟨l, by simp only [hf]⟩

theorem applyUpdates_fold_obj (updates : List PresetUpdateRequest) :
    ∀ (l : List (String × Json)), ∃ l2,
      updates.foldl (fun c u => applyOneUpdate (applyOneUpdate c "agents" u) "categories" u)
        (.obj l) = Json.obj l2 := by
  induction updates with
  | nil => intro l; exact ⟨l, rfl⟩
  | cons u rest ih =>
    intro l
    rw [List.foldl_cons]
    obtain ⟨l1, h1⟩ := applyOneUpdate_obj "agents" u (l := l)
    rw [h1]
    obtain ⟨l2, h2⟩ := applyOneUpdate_obj "categories" u (l := l1)
    rw [h2]
    exact ih l2

theorem presetMetaAt_of_get {s : SysState} {name : String} {preset : Json}
    (h : Json.mapGet s.presetFiles (presetFileKey name) = some preset) :
    presetMetaAt s name = read_preset_meta_from_file preset := by
  simp only [presetMetaAt, h]

/-- Metadata effect of one successful `save_preset` on an existing
preset holding metadata, with an object-shaped canonical document. -/
theorem save_preset_meta_step (name : String) :
    ∀ (s : SysState) (cfg : Json) (m : PresetMeta) (s2 : SysState),
      s.config = some cfg → cfg.isObj = true → presetMetaAt s name = some m →
      save_preset name s = .ok s2 →
      presetMetaAt s2 name = some ⟨m.created_at, s.now, m.version⟩ := by
  intro s cfg m s2 hcfg hobj hm hok
  rw [save_preset.eq_def] at hok
  by_cases h1 : name = ""
  · rw [if_pos h1] at hok
    simp at hok
  rw [if_neg h1] at hok
  by_cases h2 : (strContainsChar name '/' || strContainsChar name '\\') = true
  · rw [if_pos h2] at hok
    simp at hok
  rw [if_neg h2] at hok
  rw [read_omo_config.eq_def, hcfg] at hok
  simp only [Except.bind, bind] at hok
  cases hok
  simp only [presetMetaAt, Json.mapGet_mapInsert_self]
  obtain ⟨lc, hlc⟩ : ∃ l, cfg = Json.obj l := by
    rcases cfg with _ | _ | _ | _ | _ | lc
    all_goals simp [Json.isObj] at hobj
    exact ⟨lc, rfl⟩
  rcases hfile : Json.mapGet s.presetFiles (presetFileKey name) with _ | content
  · simp only [presetMetaAt, hfile] at hm
    exact Option.noConfusion hm
  · have hmeta : read_preset_meta_from_file content = some m := by
      simp only [presetMetaAt, hfile] at hm
      exact hm
    rw [hlc]
    exact build_preserves_meta hmeta

/-- A successful `save_preset` only changes the preset directory. -/
theorem save_preset_ok_fields {name : String} {s s2 : SysState}
    (hok : save_preset name s = .ok s2) :
    s2.config = s.config ∧ s2.now = s.now := by
  rw [save_preset.eq_def] at hok
  by_cases h1 : name = ""
  · rw [if_pos h1] at hok
    simp at hok
  rw [if_neg h1] at hok
  by_cases h2 : (strContainsChar name '/' || strContainsChar name '\\') = true
  · rw [if_pos h2] at hok
    simp at hok
  rw [if_neg h2] at hok
  rcases hcfg : s.config with _ | cfg
  all_goals rw [read_omo_config.eq_def, hcfg] at hok
  all_goals simp only [Except.bind, bind] at hok
  · exact absurd hok (by simp)
  · cases hok
    exact ⟨rfl, rfl⟩

/-- Saving into a fresh (absent) preset file embeds brand-new metadata
with both stamps at the current clock and version 1. -/
theorem save_preset_fresh_step (name : String) :
    ∀ (s : SysState) (cfg : Json) (s2 : SysState),
      s.config = some cfg → cfg.isObj = true →
      Json.mapGet s.presetFiles (presetFileKey name) = none →
      save_preset name s = .ok s2 →
      presetMetaAt s2 name = some ⟨s.now, s.now, 1⟩ := by
  intro s cfg s2 hcfg hobj hfile hok
  rw [save_preset.eq_def] at hok
  by_cases h1 : name = ""
  · rw [if_pos h1] at hok
    simp at hok
  rw [if_neg h1] at hok
  by_cases h2 : (strContainsChar name '/' || strContainsChar name '\\') = true
  · rw [if_pos h2] at hok
    simp at hok
  rw [if_neg h2] at hok
  rw [read_omo_config.eq_def, hcfg] at hok
  simp only [Except.bind, bind] at hok
  cases hok
  simp only [presetMetaAt, Json.mapGet_mapInsert_self]
  obtain ⟨lc, hlc⟩ : ∃ l, cfg = Json.obj l := by
    rcases cfg with _ | _ | _ | _ | _ | lc
    all_goals simp [Json.isObj] at hobj
    exact ⟨lc, rfl⟩
  rw [hfile, hlc]
  exact build_fresh_meta

/-- Metadata effect of one successful `update_preset` on an existing
preset holding metadata, with an object-shaped canonical document. -/
theorem update_preset_meta_step (name : String) :
    ∀ (s : SysState) (cfg : Json) (m : PresetMeta) (s2 : SysState),
      s.config = some cfg → cfg.isObj = true → presetMetaAt s name = some m →
      update_preset name s = .ok s2 →
      presetMetaAt s2 name = some ⟨m.created_at, s.now, m.version⟩ := by
  intro s cfg m s2 hcfg hobj hm hok
  rw [update_preset.eq_def] at hok
  by_cases h1 : name = ""
  · rw [if_pos h1] at hok
    simp at hok
  rw [if_neg h1] at hok
  rw [read_omo_config.eq_def, hcfg] at hok
  simp only [Except.bind, bind] at hok
  rcases hfile : Json.mapGet s.presetFiles (presetFileKey name) with _ | content
  · rw [hfile] at hok
    simp at hok
  · rw [hfile] at hok
    simp only [] at hok
    cases hok
    have hmeta : read_preset_meta_from_file content = some m := by
      simp only [presetMetaAt, hfile] at hm
      exact hm
    simp only [presetMetaAt, Json.mapGet_mapInsert_self]
    obtain ⟨lc, hlc⟩ : ∃ l, cfg = Json.obj l := by
      rcases cfg with _ | _ | _ | _ | _ | lc
      all_goals simp [Json.isObj] at hobj
      exact ⟨lc, rfl⟩
    rw [hlc]
    exact build_preserves_meta hmeta

/-- Metadata effect of one successful `apply_updates_to_preset` on an
existing preset holding metadata. -/
theorem apply_updates_meta_step (name : String) :
    ∀ (updates : List PresetUpdateRequest) (s : SysState) (m : PresetMeta) (s2 : SysState),
      presetMetaAt s name = some m →
      apply_updates_to_preset name updates s = .ok s2 →
      presetMetaAt s2 name = some ⟨m.created_at, s.now, m.version⟩ := by
  intro updates s m s2 hm hok
  rw [apply_updates_to_preset.eq_def] at hok
  by_cases h1 : name = ""
  · rw [if_pos h1] at hok
    simp at hok
  rw [if_neg h1] at hok
  rcases hfile : Json.mapGet s.presetFiles (presetFileKey name) with _ | content
  · simp only [hfile] at hok
    exact absurd hok (by simp)
  · simp only [hfile] at hok
    have hmeta : read_preset_meta_from_file content = some m := by
      simp only [presetMetaAt, hfile] at hm
      exact hm
    obtain ⟨lc, hlc⟩ := read_meta_some_obj hmeta
    rw [get_preset_config.eq_def, if_neg h1, hfile, hlc] at hok
    simp only [Except.bind, bind] at hok
    obtain ⟨l2, hl2⟩ := applyUpdates_fold_obj updates (Json.mapRemove lc META_FIELD)
    rw [hl2] at hok
    cases hok
    simp only [presetMetaAt, Json.mapGet_mapInsert_self]
    rw [hlc] at hmeta
    exact build_preserves_meta hmeta

/-- A concrete state for exercising the preset metadata lifecycle: an
empty-object canonical document, no presets yet, clock at 1. -/
def c3State0 : SysState :=
  { config := some (Json.obj [])
    configBak := none
    backups := []
    settings := none
    presetFiles := []
    activePreset := none
    snapshot := none
    now := 1 }

/-- State after the first `save_preset "p"` on `c3State0`. -/
def c3State1 : SysState := ((save_preset "p" c3State0).toOption).getD c3State0

/-- State after a second `save_preset "p"` made while the canonical
document is a non-object (an array) and the clock reads 2. -/
def c3State2 : SysState :=
  ((save_preset "p" { c3State1 with config := some (Json.arr []), now := 2 }).toOption).getD
    c3State0

/-- State after a third `save_preset "p"` with an object document again,
clock at 3. -/
def c3State3 : SysState :=
  ((save_preset "p" { c3State2 with config := some (Json.obj []), now := 3 }).toOption).getD
    c3State0

/-- C3: for an existing preset whose file carries metadata, each of
`save_preset`, `update_preset` and `apply_updates_to_preset` — run while
the canonical document is an object, which `apply_updates_to_preset`
does not even need — rewrites the metadata to keep `created_at` and
`version` and set `updated_at` to the current clock, so `updated_at`
never decreases while the clock does not; and saving a fresh preset
twice stamps `created_at` with the first clock both times while
`updated_at` follows each save's clock. (Amended: the spec's claim that
`created_at` never changes across repeated saves fails when a save is
made while the canonical document is not a JSON object — the metadata is
dropped and re-created, resetting `created_at`.) -/
theorem claim_c3_meta_monotonic :
    (∀ (name : String) (s : SysState) (cfg : Json) (m : PresetMeta) (s2 : SysState),
      s.config = some cfg → cfg.isObj = true → presetMetaAt s name = some m →
      (save_preset name s = .ok s2 ∨ update_preset name s = .ok s2) →
      presetMetaAt s2 name = some ⟨m.created_at, s.now, m.version⟩) ∧
    (∀ (name : String) (updates : List PresetUpdateRequest) (s : SysState)
        (m : PresetMeta) (s2 : SysState),
      presetMetaAt s name = some m →
      apply_updates_to_preset name updates s = .ok s2 →
      presetMetaAt s2 name = some ⟨m.created_at, s.now, m.version⟩) ∧
    (∀ (name : String) (s : SysState) (cfg : Json) (s1 s2 : SysState) (t2 : Nat),
      s.config = some cfg → cfg.isObj = true →
      Json.mapGet s.presetFiles (presetFileKey name) = none →
      save_preset name s = .ok s1 →
      save_preset name { s1 with now := t2 } = .ok s2 →
      presetMetaAt s1 name = some ⟨s.now, s.now, 1⟩ ∧
      presetMetaAt s2 name = some ⟨s.now, t2, 1⟩) := by
  refine ⟨?_, ?_, ?_⟩
  · rintro name s cfg m s2 hcfg hobj hm (hok | hok)
    · exact save_preset_meta_step name s cfg m s2 hcfg hobj hm hok
    · exact update_preset_meta_step name s cfg m s2 hcfg hobj hm hok
  · intro name updates s m s2 hm hok
    exact apply_updates_meta_step name updates s m s2 hm hok
  · intro name s cfg s1 s2 t2 hcfg hobj hfile hok1 hok2
    have h1 : presetMetaAt s1 name = some ⟨s.now, s.now, 1⟩ :=
      save_preset_fresh_step name s cfg s1 hcfg hobj hfile hok1
    have hcfg1 : ({ s1 with now := t2 } : SysState).config = some cfg := by
      have := (save_preset_ok_fields hok1).1
      simp [this, hcfg]
    have hm1 : presetMetaAt { s1 with now := t2 } name = some ⟨s.now, s.now, 1⟩ := h1
    have h2 := save_preset_meta_step name { s1 with now := t2 } cfg ⟨s.now, s.now, 1⟩ s2
      hcfg1 hobj hm1 hok2
    exact ⟨h1, h2⟩

/-- State after re-saving `"p"` on `c3State1` with the clock at 11. -/
def c3State1b : SysState :=
  ((save_preset "p" { c3State1 with now := 11 }).toOption).getD c3State0

theorem claim_c3_meta_monotonic_witness :
    presetMetaAt c3State1 "p" = some ⟨1, 1, 1⟩ ∧
      presetMetaAt c3State1b "p" = some ⟨1, 11, 1⟩ :=
  claim_c3_meta_monotonic.2.2 "p" c3State0 (Json.obj []) c3State1 c3State1b 11
    rfl rfl rfl rfl rfl

theorem claim_c3_counterexample :
    save_preset "p" c3State0 = .ok c3State1 ∧
    save_preset "p" { c3State1 with config := some (Json.arr []), now := 2 } = .ok c3State2 ∧
    save_preset "p" { c3State2 with config := some (Json.obj []), now := 3 } = .ok c3State3 ∧
    presetMetaAt c3State1 "p" = some ⟨1, 1, 1⟩ ∧
    presetMetaAt c3State2 "p" = none ∧
    presetMetaAt c3State3 "p" = some ⟨3, 3, 1⟩ := by
  exact ⟨rfl, rfl, rfl, rfl, rfl, rfl⟩

-- ============================================================================
-- Restore / delete / load shape lemmas (C5, C2)
-- ============================================================================

/-- Every successful `restore_from_backup` run restores an existing
backup entry after a `backup_current_config` step succeeded; the final
state is the canonical-write of the restored content on the backed-up
state. -/
theorem restore_ok_shape {path : String} {s s2 : SysState}
    (hok : restore_from_backup path s = .ok s2) :
    ∃ (b : BackupFile) (s1 : SysState),
      b ∈ s.backups ∧
      validate_config b.content = .ok () ∧
      backup_current_config s = .ok s1 ∧
      s2 = write_omo_config b.content s1 := by
  rw [restore_from_backup.eq_def] at hok
  rcases hens : ensure_backup_path path s with e | nm
  all_goals rw [hens] at hok
  all_goals simp only [Except.bind, bind] at hok
  · exact absurd hok (by simp)
  rcases hfind : s.backups.find? (fun b => b.name == nm) with _ | b
  · simp only [hfind] at hok
    exact absurd hok (by simp)
  · simp only [hfind] at hok
    rcases hval : validate_config b.content with e | u
    · simp only [hval] at hok
      exact absurd hok (by simp)
    · simp only [hval] at hok
      rcases hback : backup_current_config s with e | s1
      · simp only [hback] at hok
        exact absurd hok (by simp)
      · simp only [hback] at hok
        cases hok
        exact ⟨b, s1, List.mem_of_find?_eq_some hfind, hval, rfl, rfl⟩

deriving instance DecidableEq for Except

/-- C5 (amended): when the clock is strictly ahead of every managed
backup's creation stamp — as with a millisecond clock that ticked since
the last backup — a successful `restore_from_backup` leaves a new
managed backup holding the pre-restore canonical document even after the
retention prune pass.  (Amended: the unconditional claim fails; when the
restore happens in the same millisecond as an existing managed backup
and the retention limit is already reached, the prune pass deletes the
just-created backup, see the counterexample.) -/
theorem claim_c5_restore_reversible (path : String) (s : SysState) (cfg : Json)
    (s2 : SysState)
    (hnd : (s.backups.map BackupFile.name).Nodup)
    (hcfg : s.config = some cfg)
    (hnewest : ∀ b ∈ s.backups, isManagedName b.name = true → b.createdTs < s.now)
    (hok : restore_from_backup path s = .ok s2) :
    ∃ e ∈ s2.backups, isManagedName e.name = true ∧ e.content = cfg ∧
      e.createdTs = s.now := by
  obtain ⟨b, s1, hbmem, hval, hback, hs2⟩ := restore_ok_shape hok
  rw [backup_current_config] at hback
  obtain ⟨⟨e, hemem, heman, hecont, hets⟩, hcfg1⟩ :=
    backup_creates_entry (Or.inl rfl) hnd hcfg hnewest hback
  refine ⟨e, ?_, heman, hecont, hets⟩
  rw [hs2]
  exact hemem

/-- A well-formed canonical document for the restore scenarios, with a
marker field distinguishing it from the backup being restored. -/
def c5Cfg0 : Json :=
  Json.obj [("agents", Json.obj []), ("categories", Json.obj []), ("x", Json.num 1)]

/-- A well-formed backup document for the restore scenarios. -/
def c5CfgR : Json := Json.obj [("agents", Json.obj []), ("categories", Json.obj [])]

/-- Restore scenario with a ticked clock: one managed backup created at
4, restore at 5. -/
def c5WitState : SysState :=
  { config := some c5Cfg0
    configBak := none
    backups := [⟨"oh-my-opencode_4.json", c5CfgR, 4⟩]
    settings := none
    presetFiles := []
    activePreset := none
    snapshot := none
    now := 5 }

def c5WitPath : String := backupDirPath ++ "/oh-my-opencode_4.json"

def c5WitAfter : SysState :=
  ((restore_from_backup c5WitPath c5WitState).toOption).getD c5WitState

theorem claim_c5_restore_reversible_witness :
    ((c5WitState.backups.map BackupFile.name).Nodup ∧
      c5WitState.config = some c5Cfg0 ∧
      (∀ b ∈ c5WitState.backups, isManagedName b.name = true →
        b.createdTs < c5WitState.now) ∧
      restore_from_backup c5WitPath c5WitState = .ok c5WitAfter) ∧
    ∃ e ∈ c5WitAfter.backups, isManagedName e.name = true ∧ e.content = c5Cfg0 ∧
      e.createdTs = c5WitState.now :=
  ⟨⟨by decide, rfl, by decide, by decide⟩,
    claim_c5_restore_reversible c5WitPath c5WitState c5Cfg0 c5WitAfter (by decide) rfl
      (by decide) (by decide)⟩

/-- Restore scenario with a tied clock: one managed backup created at 5,
restore also at 5, retention limit 1. -/
def c5CexState : SysState :=
  { config := some c5Cfg0
    configBak := none
    backups := [⟨"oh-my-opencode_5.json", c5CfgR, 5⟩]
    settings := some 1
    presetFiles := []
    activePreset := none
    snapshot := none
    now := 5 }

def c5CexPath : String := backupDirPath ++ "/oh-my-opencode_5.json"

def c5CexAfter : SysState :=
  ((restore_from_backup c5CexPath c5CexState).toOption).getD c5CexState

theorem claim_c5_counterexample :
    (restore_from_backup c5CexPath c5CexState).isOk = true ∧
    c5CexState.config = some c5Cfg0 ∧
    (∀ b ∈ c5CexAfter.backups, ¬ b.content = c5Cfg0) := by decide

/-- C2 (amended): of the three destructive operations only
`restore_from_backup` performs a backup-before-mutate step into the
backup history (shown here under a ticked clock).  `delete_backup_entry`
is exactly a gate-and-remove — it adds no backup, so the deleted entry's
content need not remain recoverable — and `load_preset` leaves the
backup history untouched, its only safety net being the `.bak` sibling
written by the canonical-config write. -/
theorem claim_c2_destructive_backup_steps :
    (∀ (path : String) (s : SysState) (cfg : Json) (s2 : SysState),
      (s.backups.map BackupFile.name).Nodup → s.config = some cfg →
      (∀ b ∈ s.backups, isManagedName b.name = true → b.createdTs < s.now) →
      restore_from_backup path s = .ok s2 →
      ∃ e ∈ s2.backups, isManagedName e.name = true ∧ e.content = cfg ∧
        e.createdTs = s.now) ∧
    (∀ (path : String) (s s2 : SysState),
      delete_backup_entry path s = .ok s2 →
      ∃ nm, ensure_backup_path path s = .ok nm ∧
        s2.backups = s.backups.filter (fun b => b.name != nm) ∧
        s2.config = s.config ∧ s2.configBak = s.configBak) ∧
    (∀ (name : String) (s s2 : SysState),
      load_preset name s = .ok s2 →
      s2.backups = s.backups ∧
      s2.configBak = (if s.config.isSome then s.config else s.configBak)) := by
  refine ⟨?_, ?_, ?_⟩
  · intro path s cfg s2 hnd hcfg hnewest hok
    obtain ⟨b, s1, hbmem, hval, hback, hs2⟩ := restore_ok_shape hok
    rw [backup_current_config] at hback
    obtain ⟨⟨e, hemem, heman, hecont, hets⟩, hcfg1⟩ :=
      backup_creates_entry (Or.inl rfl) hnd hcfg hnewest hback
    refine ⟨e, ?_, heman, hecont, hets⟩
    rw [hs2]
    exact hemem
  · intro path s s2 hok
    rw [delete_backup_entry.eq_def] at hok
    rcases hens : ensure_backup_path path s with e | nm
    · simp only [hens, Except.bind, bind] at hok
      exact absurd hok (fun hc => Except.noConfusion hc)
    · simp only [hens] at hok
      cases hok
      exact ⟨nm, rfl, rfl, rfl, rfl⟩
  · intro name s s2 hok
    rw [load_preset.eq_def] at hok
    by_cases h1 : name = ""
    · rw [if_pos h1] at hok
      simp at hok
    rw [if_neg h1] at hok
    rcases hfile : Json.mapGet s.presetFiles (presetFileKey name) with _ | content
    · simp only [hfile] at hok
      exact absurd hok (by simp)
    · simp only [hfile] at hok
      cases hok
      exact ⟨rfl, rfl⟩

/-- Delete scenario: a single managed backup, deleted. -/
def c2CexState : SysState :=
  { config := some c5Cfg0
    configBak := none
    backups := [⟨"oh-my-opencode_3.json", c5CfgR, 3⟩]
    settings := none
    presetFiles := []
    activePreset := none
    snapshot := none
    now := 7 }

def c2CexPath : String := backupDirPath ++ "/oh-my-opencode_3.json"

def c2CexAfter : SysState :=
  ((delete_backup_entry c2CexPath c2CexState).toOption).getD c2CexState

theorem claim_c2_counterexample :
    (delete_backup_entry c2CexPath c2CexState).isOk = true ∧
    c2CexAfter.backups = [] ∧
    c2CexState.backups ≠ [] ∧
    (∀ b ∈ c2CexAfter.backups, ¬ b.content = c5CfgR) := by decide

theorem claim_c2_destructive_backup_steps_witness :
    (delete_backup_entry c2CexPath c2CexState = .ok c2CexAfter) ∧
    (∃ nm, ensure_backup_path c2CexPath c2CexState = .ok nm ∧
      c2CexAfter.backups = c2CexState.backups.filter (fun b => b.name != nm) ∧
      c2CexAfter.config = c2CexState.config ∧
      c2CexAfter.configBak = c2CexState.configBak) :=
  ⟨by decide,
    claim_c2_destructive_backup_steps.2.1 c2CexPath c2CexState c2CexAfter (by decide)⟩

/-- A successful `update_preset` only rewrites the preset directory. -/
theorem update_preset_ok_pointer {name : String} {s s2 : SysState}
    (hok : update_preset name s = .ok s2) :
    s2.activePreset = s.activePreset := by
  rw [update_preset.eq_def] at hok
  by_cases h1 : name = ""
  · rw [if_pos h1] at hok
    simp at hok
  rw [if_neg h1] at hok
  rcases hcfg : s.config with _ | cfg
  all_goals rw [read_omo_config.eq_def, hcfg] at hok
  all_goals simp only [Except.bind, bind] at hok
  · exact absurd hok (fun hc => Except.noConfusion hc)
  · rcases hfile : Json.mapGet s.presetFiles (presetFileKey name) with _ | content
    · simp only [hfile] at hok
      exact absurd hok (fun hc => Except.noConfusion hc)
    · simp only [hfile] at hok
      cases hok
      rfl

/-- C1 (amended): `get_active_preset` itself performs no sentinel
filtering — any pointer content with a nonempty trim, a legacy
`__builtin__`-prefixed value included, is returned as read.  The legacy
migration lives in `accept_external_changes`: when the pointer reads as
a `__builtin__`-prefixed name, a successful run reports and persists the
active preset `"default"`. -/
theorem claim_c1_sentinel_pointer :
    (∀ (s : SysState) (c : String), s.activePreset = some c → strTrim c ≠ "" →
      get_active_preset s = some (strTrim c)) ∧
    (∀ (s : SysState) (n : String) (r : AcceptExternalChangesResult) (s2 : SysState),
      get_active_preset s = some n → strStartsWith n "__builtin__" = true →
      accept_external_changes s = .ok (r, s2) →
      r.active_preset = some "default" ∧ s2.activePreset = some "default") := by
  constructor
  · intro s c hc hne
    rw [get_active_preset, hc]
    simp only [if_neg hne]
  · intro s n r s2 hget hsent hok
    rw [accept_external_changes.eq_def] at hok
    rcases hcfg : s.config with _ | cfg
    all_goals rw [read_omo_config.eq_def, hcfg] at hok
    all_goals simp only [Except.bind, bind] at hok
    · exact absurd hok (fun hc => Except.noConfusion hc)
    rcases hval : validate_config cfg with e | u
    all_goals simp only [hval, Except.bind, bind] at hok
    · exact absurd hok (fun hc => Except.noConfusion hc)
    have hget1 : get_active_preset (save_config_snapshot cfg s) = some n := hget
    simp only [hget1, hsent, if_pos] at hok
    rcases hupd : update_preset "default"
        (set_active_preset "default" (save_config_snapshot cfg s)) with e | s3
    all_goals simp only [hupd] at hok
    · cases hok
      exact ⟨rfl, rfl⟩
    · cases hok
      refine ⟨rfl, ?_⟩
      rw [update_preset_ok_pointer hupd]
      rfl

/-- A pointer file holding a legacy sentinel name. -/
def c1CexState : SysState :=
  { config := some c5CfgR
    configBak := none
    backups := []
    settings := none
    presetFiles := []
    activePreset := some "__builtin__legacy"
    snapshot := none
    now := 1 }

theorem claim_c1_counterexample :
    strStartsWith "__builtin__legacy" "__builtin__" = true ∧
    get_active_preset c1CexState = some "__builtin__legacy" ∧
    get_active_preset c1CexState ≠ none := by decide

/-- Sentinel pointer state with a well-formed canonical document, for
running `accept_external_changes`. -/
def c1WitState : SysState :=
  { config := some c5CfgR
    configBak := none
    backups := []
    settings := none
    presetFiles := []
    activePreset := some "__builtin__x"
    snapshot := none
    now := 1 }

def c1WitRes : AcceptExternalChangesResult × SysState :=
  ((accept_external_changes c1WitState).toOption).getD
    (⟨Json.null, none, false, none⟩, c1WitState)

theorem claim_c1_sentinel_pointer_witness :
    (get_active_preset c1WitState = some "__builtin__x" ∧
      accept_external_changes c1WitState = .ok (c1WitRes.1, c1WitRes.2)) ∧
    ((c1WitRes.1).active_preset = some "default" ∧
      (c1WitRes.2).activePreset = some "default") :=
  ⟨⟨by decide, by decide⟩,
    claim_c1_sentinel_pointer.2 c1WitState "__builtin__x" c1WitRes.1 c1WitRes.2
      (by decide) (by decide) (by decide)⟩

/-- C10: `save_preset` rejects the empty name and any name holding a
path separator, while `load_preset`, `update_preset`, `delete_preset`,
`get_preset_config` and `apply_updates_to_preset` reject only the empty
name: given the file that `{name}.json` resolves to, each of the five
succeeds on a separator-carrying name and reads, mutates or deletes that
file — for `"../evil"` a path outside the presets directory. -/
theorem claim_c10_path_validation :
    (∀ s : SysState, save_preset "" s = .error "preset_name_empty") ∧
    (∀ (name : String) (s : SysState), name ≠ "" →
      (strContainsChar name '/' || strContainsChar name '\\') = true →
      save_preset name s = .error "preset_name_invalid_path") ∧
    (∀ (s : SysState) (updates : List PresetUpdateRequest),
      load_preset "" s = .error "preset_name_empty" ∧
      update_preset "" s = .error "preset_name_empty" ∧
      delete_preset "" s = .error "preset_name_empty" ∧
      get_preset_config "" s = .error "preset_name_empty" ∧
      apply_updates_to_preset "" updates s = .error "preset_name_empty") ∧
    (∀ (name : String) (s : SysState) (c : Json), name ≠ "" →
      Json.mapGet s.presetFiles (presetFileKey name) = some c →
      delete_preset name s =
        .ok { s with presetFiles := Json.mapRemove s.presetFiles (presetFileKey name) } ∧
      get_preset_config name s =
        .ok (match c with
          | Json.obj l => Json.obj (Json.mapRemove l META_FIELD)
          | other => other) ∧
      load_preset name s =
        .ok (set_active_preset name (write_omo_config
          (match c with
            | Json.obj l => Json.obj (Json.mapRemove l META_FIELD)
            | other => other) s)) ∧
      (∀ cfg : Json, s.config = some cfg →
        update_preset name s =
          .ok { s with presetFiles := (Json.mapInsert s.presetFiles (presetFileKey name)
            (build_preset_with_meta cfg (some c) s.now)) }) ∧
      (∀ updates : List PresetUpdateRequest,
        apply_updates_to_preset name updates s =
          .ok { s with presetFiles := (Json.mapInsert s.presetFiles (presetFileKey name)
            (build_preset_with_meta
              (updates.foldl
                (fun d u => applyOneUpdate (applyOneUpdate d "agents" u) "categories" u)
                (match c with
                  | Json.obj l => Json.obj (Json.mapRemove l META_FIELD)
                  | other => other))
              (some c) s.now)) })) ∧
    (strContainsChar "../evil" '/' = true ∧
      presetFileKey "../evil" = "/home/user/.config/OMO-Switch/evil.json" ∧
      strStartsWith (presetFileKey "../evil") (presetsDirPath ++ "/") = false) := by
  refine ⟨?_, ?_, ?_, ?_, by decide⟩
  · intro s
    rfl
  · intro name s hne hsep
    rw [save_preset.eq_def, if_neg hne, if_pos hsep]
  · intro s updates
    exact ⟨rfl, rfl, rfl, rfl, rfl⟩
  · intro name s c hne hfile
    refine ⟨?_, ?_, ?_, ?_, ?_⟩
    · rw [delete_preset.eq_def, if_neg hne]
      simp only [hfile]
    · rcases c with _ | b | n | st | la | lo
      all_goals rw [get_preset_config.eq_def, if_neg hne]
      all_goals simp only [hfile]
    · rcases c with _ | b | n | st | la | lo
      all_goals rw [load_preset.eq_def, if_neg hne]
      all_goals simp only [hfile]
    · intro cfg hcfg
      rw [update_preset.eq_def, if_neg hne, read_omo_config.eq_def, hcfg]
      simp only [Except.bind, bind, hfile]
    · intro updates
      rcases c with _ | b | n | st | la | lo
      all_goals rw [apply_updates_to_preset.eq_def, if_neg hne, get_preset_config.eq_def,
        if_neg hne]
      all_goals simp only [hfile, Except.bind, bind]

/-- A state holding a preset file at the escaped path that the name
`"../evil"` reaches. -/
def c10State : SysState :=
  { config := some c5CfgR
    configBak := none
    backups := []
    settings := none
    presetFiles := [("/home/user/.config/OMO-Switch/evil.json", Json.obj [])]
    activePreset := none
    snapshot := none
    now := 1 }

theorem claim_c10_path_validation_witness :
    (("../evil" ≠ "" ∧ (strContainsChar "../evil" '/' || strContainsChar "../evil" '\\') = true) ∧
      save_preset "../evil" c10State = .error "preset_name_invalid_path") ∧
    (Json.mapGet c10State.presetFiles (presetFileKey "../evil") = some (Json.obj []) ∧
      delete_preset "../evil" c10State =
        .ok { c10State with
          presetFiles := Json.mapRemove c10State.presetFiles (presetFileKey "../evil") }) ∧
    ((load_preset "../evil" c10State).isOk = true ∧
      (update_preset "../evil" c10State).isOk = true ∧
      (apply_updates_to_preset "../evil" [] c10State).isOk = true) :=
  ⟨⟨⟨by decide, by decide⟩,
      claim_c10_path_validation.2.1 "../evil" c10State (by decide) (by decide)⟩,
    ⟨by decide,
      (claim_c10_path_validation.2.2.2.1 "../evil" c10State (Json.obj []) (by decide)
        (by decide)).1⟩,
    by decide, by decide, by decide⟩

/-- Backup directory with four managed files and one unmanaged file, for
exercising the retention prune at limit 2. -/
def c9State : SysState :=
  { config := some c5CfgR
    configBak := none
    backups := [⟨"oh-my-opencode_100.json", Json.obj [], 100⟩,
                ⟨"oh-my-opencode_90.json", Json.obj [], 90⟩,
                ⟨"export_80.json", Json.obj [], 80⟩,
                ⟨"oh-my-opencode_70.json", Json.obj [], 70⟩,
                ⟨"notes.txt", Json.obj [], 60⟩]
    settings := none
    presetFiles := []
    activePreset := none
    snapshot := none
    now := 101 }

theorem claim_c9_retention_bound_witness :
    (c9State.backups.map BackupFile.name).Nodup ∧
    ((set_max_backup_records 2 c9State).2.backups.filter
        (fun b => isManagedName b.name)).length ≤ normalize_max_backup_records 2 :=
  ⟨by decide, (claim_c9_retention_bound 2 c9State (by decide)).2.2.2.2.1⟩
